import Mathlib

/-!
Shallow embedding of the workflow-orchestration core of the `yoke` CLI
(`cmd/yoke/main.go` and `cmd/yoke/intake_apply.go`), together with proofs
about its claims: the status normalizer, the dependency-graph validator
used by `yoke intake`, the epic-aware claim resolver, the daemon loop,
and the bulk-apply operation.

Modelling conventions:
- Go strings are Lean `String`s; `strings.TrimSpace` is modelled by
  `trimSpace` (ASCII whitespace; the Unicode classes Go additionally
  trims are irrelevant to every statement below), `strings.EqualFold`
  by lower-casing both sides (ASCII case folding).
- Go maps used as sets are association lists / lists with membership;
  map iteration order is never observable in the modelled code paths
  (maps are used for membership tests, last-write-wins updates and
  order-independent "all values" checks only).
- Fallible Go functions return `Except`/`Option` with structured error
  values mirroring the data carried by each `fmt.Errorf` call site.
- External processes (bd, git, shell commands) are injected as function
  parameters / environment records, exactly as the repository's own
  tests inject a scripted `intakeBDRunner` stub.
-/

namespace Yoke

/-- Whitespace characters trimmed by the model of `strings.TrimSpace`. -/
def isSpaceChar (c : Char) : Bool := c = ' ' ∨ c = '\t' ∨ c = '\n' ∨ c = '\r'

/-- Model of Go `strings.TrimSpace` (leading/trailing whitespace removed). -/
def trimSpace (s : String) : String :=
  ⟨((s.data.dropWhile isSpaceChar).reverse.dropWhile isSpaceChar).reverse⟩

/-- Model of Go `strings.ToLower` (ASCII case folding). -/
def lowerAscii (s : String) : String := ⟨s.data.map Char.toLower⟩

/-- Model of Go `strings.EqualFold` (case-insensitive equality; ASCII folding). -/
def equalFold (a b : String) : Bool := lowerAscii a == lowerAscii b

/-- `bdListIssue` from cmd/yoke/main.go: one row of `bd` JSON output. -/
structure bdListIssue where
  id : String
  title : String
  status : String
  issueType : String
  labels : List String
  commentCount : Int
  dependencyType : String
deriving DecidableEq, Repr, Inhabited

/-- `reviewQueueLabel` constant from cmd/yoke/main.go. -/
def reviewQueueLabel : String := "yoke:in_review"

/-- `hasLabel` from cmd/yoke/main.go: case-insensitive membership after trimming. -/
def hasLabel : List String → String → Bool
  | [], _ => false
  | label :: rest, target =>
    if equalFold (trimSpace label) target then true else hasLabel rest target

/-- `workflowStatusForIssue` from cmd/yoke/main.go: the status normalizer.
Lower-cases the trimmed raw status; `blocked` plus the review-queue label
normalizes to `in_review`. -/
def workflowStatusForIssue (issue : bdListIssue) : String :=
  let status := lowerAscii (trimSpace issue.status)
  if status = "blocked" ∧ hasLabel issue.labels reviewQueueLabel then "in_review"
  else status

/-- `hasOpenBlockingDependencies` from cmd/yoke/main.go: true when some
dependency row of type `blocks` has logical status other than `closed`. -/
def hasOpenBlockingDependencies : List bdListIssue → Bool
  | [] => false
  | dep :: rest =>
    if equalFold (trimSpace dep.dependencyType) "blocks" then
      if workflowStatusForIssue dep = "closed" then hasOpenBlockingDependencies rest
      else true
    else hasOpenBlockingDependencies rest

/-! ## Intake plan data model (intake source file / intake_apply.go) -/

/-- `intakePlanEpic`. -/
structure intakePlanEpic where
  title : String
  description : String
  priority : String
deriving DecidableEq, Repr, Inhabited

/-- `intakePlanTask` (current shape, with the plan-local `ref` used by
intake_apply.go and the apply tests). -/
structure intakePlanTask where
  ref : String
  title : String
  description : String
  acceptanceCriteria : List String
  localDependencyRefs : List String
deriving DecidableEq, Repr, Inhabited

/-- `intakePlan`. -/
structure intakePlan where
  epic : intakePlanEpic
  tasks : List intakePlanTask
deriving DecidableEq, Repr, Inhabited

/-- `intakeDependencyEdge` from intake_apply.go. -/
structure intakeDependencyEdge where
  blockedRef : String
  blockerRef : String
deriving DecidableEq, Repr, Inhabited

/-- The validation errors produced by `validateAndCollectDependencyEdges`
and `detectDependencyCycle` in intake_apply.go, one constructor per
`fmt.Errorf` site, carrying the same data as the format arguments.
`fuelExhausted` does not correspond to any Go error: it is the
out-of-fuel marker of the fuel-indexed DFS model below, and is proved
unreachable (`detectDependencyCycle_no_fuelExhausted`). -/
inductive IntakeError where
  | unknownRef (ref : String) (i j : Nat)
  | duplicateRelation (blockedRef blockerRef : String)
  | cycleDetected (ref : String)
  | fuelExhausted
deriving DecidableEq, Repr

/-- The NUL separator Go uses to build `pairKey := blockedRef + "\x00" + blockerRef`. -/
def nulSep : String := String.singleton (Char.ofNat 0)

/-- The inner loop of `validateAndCollectDependencyEdges` over
`task.LocalDependencyRefs` (loop variable `j`), threading the
`seenPairs` set and the `edges` accumulator. -/
def collectDeps (known : List String) (i : Nat) (blockedRef : String) :
    List String → Nat → List String → List intakeDependencyEdge →
    Except IntakeError (List String × List intakeDependencyEdge)
  | [], _, seenPairs, edges => .ok (seenPairs, edges)
  | blockerRefRaw :: rest, j, seenPairs, edges =>
    let blockerRef := trimSpace blockerRefRaw
    if blockerRef ∈ known then
      let pairKey := blockedRef ++ nulSep ++ blockerRef
      if pairKey ∈ seenPairs then .error (.duplicateRelation blockedRef blockerRef)
      else collectDeps known i blockedRef rest (j + 1) (pairKey :: seenPairs)
        (edges ++ [⟨blockedRef, blockerRef⟩])
    else .error (.unknownRef blockerRef i j)

/-- The outer loop of `validateAndCollectDependencyEdges` over `plan.Tasks`
(loop variable `i`). -/
def collectTasks (known : List String) :
    List intakePlanTask → Nat → List String → List intakeDependencyEdge →
    Except IntakeError (List String × List intakeDependencyEdge)
  | [], _, seenPairs, edges => .ok (seenPairs, edges)
  | task :: rest, i, seenPairs, edges =>
    match collectDeps known i (trimSpace task.ref) task.localDependencyRefs 0 seenPairs edges with
    | .error e => .error e
    | .ok (seenPairs2, edges2) => collectTasks known rest (i + 1) seenPairs2 edges2

/-- The reference-integrity and duplicate-pair phase of
`validateAndCollectDependencyEdges` (everything before the
`detectDependencyCycle` call): builds `knownTaskRefs` and runs the
nested loops. -/
def collectIntakeEdges (plan : intakePlan) : Except IntakeError (List intakeDependencyEdge) :=
  let known := plan.tasks.map (fun t => trimSpace t.ref)
  match collectTasks known plan.tasks 0 [] [] with
  | .error e => .error e
  | .ok (_, edges) => .ok edges

/-! ## detectDependencyCycle (intake_apply.go)

The Go function builds `graph : map[string][]string` (adjacency by
`blockedRef`, targets in edge order) and runs a recursive three-color
depth-first search (`visitState`: 0 unvisited, 1 in progress, 2 done)
rooted at every task ref in order.  The recursion is modelled with a
fuel parameter consumed once per call; `detectFuel` below is proved
large enough that the out-of-fuel marker is unreachable, so the model
agrees with the (always-terminating) Go recursion. -/

/-- Adjacency of the dependency graph built by `detectDependencyCycle`:
`graph[edge.blockedRef] = append(..., edge.blockerRef)` in edge order;
absent keys give the empty list, as a Go map lookup does. -/
def edgeAdj (edges : List intakeDependencyEdge) (r : String) : List String :=
  (edges.filter (fun e => e.blockedRef = r)).map (fun e => e.blockerRef)

/-- Pointwise state update for the `visitState` map (absent keys read 0). -/
def upd (st : String → Nat) (r : String) (v : Nat) : String → Nat :=
  fun x => if x = r then v else st x

/-- Result of one `visit` call: a new `visitState`, a detected cycle
(the Go error carrying the in-progress ref), or fuel exhaustion. -/
inductive DfsRes where
  | okSt (st : String → Nat)
  | cycleAt (r : String)
  | fuelOut

mutual

/-- The recursive `visit` closure of `detectDependencyCycle`: mark the
ref in progress, walk its adjacency list, then mark it done. -/
def dfsVisit (adj : String → List String) : Nat → (String → Nat) → String → DfsRes
  | 0, _, _ => .fuelOut
  | fuel + 1, st, ref =>
    match dfsList adj fuel (upd st ref 1) (adj ref) with
    | .okSt st2 => .okSt (upd st2 ref 2)
    | res => res

/-- The `for _, dependencyRef := range graph[ref]` loop inside `visit`:
an in-progress neighbour is a cycle, an unvisited one is visited
recursively, a finished one is skipped. -/
def dfsList (adj : String → List String) : Nat → (String → Nat) → List String → DfsRes
  | _, st, [] => .okSt st
  | 0, _, _ :: _ => .fuelOut
  | fuel + 1, st, d :: rest =>
    if st d = 1 then .cycleAt d
    else if st d = 0 then
      match dfsVisit adj fuel st d with
      | .okSt st2 => dfsList adj fuel st2 rest
      | res => res
    else dfsList adj fuel st rest

end

/-- Outcome of the top-level `for _, task := range plan.Tasks` loop. -/
inductive TopRes where
  | ok
  | cycleAt (r : String)
  | fuelOut
deriving DecidableEq, Repr

/-- The top-level loop of `detectDependencyCycle`: visit every task ref
whose state is still 0, propagating the first error. -/
def dfsTop (adj : String → List String) (fuel : Nat) :
    (String → Nat) → List String → TopRes
  | _, [] => .ok
  | st, ref :: rest =>
    if st ref ≠ 0 then dfsTop adj fuel st rest
    else
      match dfsVisit adj fuel st ref with
      | .okSt st2 => dfsTop adj fuel st2 rest
      | .cycleAt d => .cycleAt d
      | .fuelOut => .fuelOut

/-- Every node the DFS can ever touch: the trimmed task refs (the roots)
and every edge target. -/
def dfsNodes (plan : intakePlan) (edges : List intakeDependencyEdge) : List String :=
  plan.tasks.map (fun t => trimSpace t.ref) ++ edges.map (fun e => e.blockerRef)

/-- Fuel for the DFS model; proved sufficient below. -/
def detectFuel (plan : intakePlan) (edges : List intakeDependencyEdge) : Nat :=
  (dfsNodes plan edges).length * (1 + edges.length) + 1

/-- `detectDependencyCycle` from intake_apply.go. Returns `none` when no
cycle is found, `some (cycleDetected r)` on the Go error
`cycle detected involving local task ref r`. -/
def detectDependencyCycle (plan : intakePlan) (edges : List intakeDependencyEdge) :
    Option IntakeError :=
  match dfsTop (edgeAdj edges) (detectFuel plan edges) (fun _ => 0)
      (plan.tasks.map (fun t => trimSpace t.ref)) with
  | .ok => none
  | .cycleAt r => some (.cycleDetected r)
  | .fuelOut => some .fuelExhausted

/-- `validateAndCollectDependencyEdges` from intake_apply.go: the
reference/duplicate phase followed by cycle detection; only a fully
validated edge list is returned. -/
def validateAndCollectDependencyEdges (plan : intakePlan) :
    Except IntakeError (List intakeDependencyEdge) :=
  match collectIntakeEdges plan with
  | .error e => .error e
  | .ok edges =>
    match detectDependencyCycle plan edges with
    | some e => .error e
    | none => .ok edges

/-! ## Claim resolver (cmd/yoke/main.go)

`pickEpicChildToClaim` and the selection tail of `resolveClaimIssue`.
The external `bd` reads that feed the selection are injected as a
`ClaimEnv` snapshot: `details` is the `issueDetails` result for the
requested issue, `descendants`/`inProgress`/`ready` are the three list
reads, and `deps` gives `listIssueDependencies` per issue id.  The epic
improvement cycle and the clarification auto-close that run before the
snapshot reads are external actions; the snapshots model the state read
after them, exactly as the Go code re-reads everything afterwards. -/

/-- Insert-or-overwrite on an association list: the model of a Go map
assignment `m[k] = v`. -/
def alInsert {α : Type} : List (String × α) → String → α → List (String × α)
  | [], k, v => [(k, v)]
  | (k0, v0) :: rest, k, v =>
    if k0 = k then (k0, v) :: rest else (k0, v0) :: alInsert rest k v

/-- The `workItems` map built by `pickEpicChildToClaim`: descendants with
non-empty trimmed ids whose type is not (case-insensitively) `epic`,
keyed by trimmed id, last write winning. -/
def claimWorkItems (descendants : List bdListIssue) : List (String × bdListIssue) :=
  descendants.foldl
    (fun acc issue =>
      let issueId := trimSpace issue.id
      if issueId = "" then acc
      else if equalFold (trimSpace issue.issueType) "epic" then acc
      else alInsert acc issueId issue)
    []

/-- The first candidate in a snapshot list whose trimmed id is a key of
`workItems` (the `for _, issue := range inProgress` / `range ready`
loops of `pickEpicChildToClaim`). -/
def firstWorkItemMatch (workItems : List (String × bdListIssue)) :
    List bdListIssue → Option String
  | [] => none
  | candidate :: rest =>
    let candidateId := trimSpace candidate.id
    if (workItems.lookup candidateId).isSome then some candidateId
    else firstWorkItemMatch workItems rest

/-- `pickEpicChildToClaim` from cmd/yoke/main.go: returns the selected
child id and the `epicComplete` flag. -/
def pickEpicChildToClaim (descendants inProgress ready : List bdListIssue) :
    String × Bool :=
  let workItems := claimWorkItems descendants
  if workItems = [] then ("", true)
  else
    match firstWorkItemMatch workItems inProgress with
    | some issueId => (issueId, false)
    | none =>
      match firstWorkItemMatch workItems ready with
      | some issueId => (issueId, false)
      | none =>
        if workItems.all (fun kv => workflowStatusForIssue kv.2 = "closed") then ("", true)
        else ("", false)

/-- Environment snapshot consumed by the claim resolver (see section
comment above). -/
structure ClaimEnv where
  details : bdListIssue
  descendants : List bdListIssue
  inProgress : List bdListIssue
  ready : List bdListIssue
  deps : String → List bdListIssue

/-- The triple returned by `resolveClaimIssue`: `(issue, epicCompleted, err)`. -/
structure ClaimOutcome where
  selected : String
  containerComplete : Bool
  err : Option String
deriving DecidableEq, Repr

/-- The in-progress filtering loop of `resolveClaimIssue`: drop blank
ids and every candidate with an open blocking dependency
(`issueHasOpenBlockingDependencies`).  The `ready` list receives no such
in-process filtering in the source. -/
def filterClaimInProgress (deps : String → List bdListIssue) :
    List bdListIssue → List bdListIssue
  | [] => []
  | candidate :: rest =>
    let candidateId := trimSpace candidate.id
    if candidateId = "" then filterClaimInProgress deps rest
    else if hasOpenBlockingDependencies (deps candidateId) then
      filterClaimInProgress deps rest
    else candidate :: filterClaimInProgress deps rest

/-- The selection tail of `resolveClaimIssue` (from the snapshot reads to
the return): filter the in-progress snapshot, pick a child, and map the
`(target, epicComplete)` pair onto the function's three outcomes.  The
`bd close` issued in the complete branch is an external effect with no
influence on the returned triple. -/
def resolveClaimSelection (issue : String) (env : ClaimEnv) : ClaimOutcome :=
  let filteredInProgress := filterClaimInProgress env.deps env.inProgress
  match pickEpicChildToClaim env.descendants filteredInProgress env.ready with
  | (target, epicComplete) =>
    if target ≠ "" then ⟨target, false, none⟩
    else if epicComplete then ⟨"", true, none⟩
    else ⟨"", false,
      some ("epic " ++ issue ++
        " has no claimable child tasks (all remaining children are blocked or already claimed)")⟩

/-- `resolveClaimIssue` from cmd/yoke/main.go: non-epics are claimed
directly, a closed epic is already complete, otherwise the selection
tail runs on the environment snapshot. -/
def resolveClaimIssue (issue : String) (env : ClaimEnv) : ClaimOutcome :=
  if ¬ (equalFold (trimSpace env.details.issueType) "epic" = true) then ⟨issue, false, none⟩
  else if workflowStatusForIssue env.details = "closed" then ⟨"", true, none⟩
  else resolveClaimSelection issue env

/-! ## Daemon loop (cmd/yoke/main.go)

`runDaemonIteration` / `runDaemonRoleCommand` / the `cmdDaemon` loop.
The tracker and the external shell commands are injected as a
`DaemonEnv` over an abstract world state `σ`: `reviewable`,
`focusedOrInProgress` and `next` are the three snapshot queries,
`statusOf` is `issueStatus` (the logical status of an issue read fresh
from `bd show`), and `runRole`/`runClaim`/`checkoutBranch` are the
world-transforming external actions (role shell command, `cmdClaim`,
`ensureIssueBranchCheckedOut`). -/

structure DaemonEnv (σ : Type) where
  reviewable : σ → String
  focusedOrInProgress : σ → String
  next : σ → String
  statusOf : σ → String → String
  runRole : String → String → σ → σ
  runClaim : String → σ → σ
  checkoutBranch : String → σ → σ

/-- `runDaemonRoleCommand`: capture the status, run the role command,
re-read the status, and fail when it did not change. -/
def runDaemonRoleCommand {σ : Type} (env : DaemonEnv σ) (role issue : String) (s : σ) :
    Except String σ :=
  let previousStatus := env.statusOf s issue
  let s2 := env.runRole role issue s
  let currentStatus := env.statusOf s2 issue
  if currentStatus = previousStatus then
    .error (role ++ " command did not advance issue " ++ issue ++ " (still " ++
      currentStatus ++ "); ensure the command transitions bd state")
  else .ok s2

/-- `runDaemonIteration`: review beats write beats claim beats idle; the
claim action invokes `cmdClaim` directly, with no status re-check. -/
def runDaemonIteration {σ : Type} (env : DaemonEnv σ) (s : σ) :
    Except String (String × σ) :=
  let reviewable := env.reviewable s
  if reviewable ≠ "" then
    match runDaemonRoleCommand env "reviewer" reviewable s with
    | .error e => .error e
    | .ok s2 => .ok ("reviewed " ++ reviewable, s2)
  else
    let inProgress := env.focusedOrInProgress s
    if inProgress ≠ "" then
      let s1 := env.checkoutBranch inProgress s
      match runDaemonRoleCommand env "writer" inProgress s1 with
      | .error e => .error e
      | .ok s2 => .ok ("wrote " ++ inProgress, s2)
    else
      let next := env.next s
      if next ≠ "" then .ok ("claimed " ++ next, env.runClaim next s)
      else .ok ("idle", s)

/-- The `cmdDaemon` iteration loop: run up to `fuel` iterations,
returning the first iteration error immediately (the Go loop does
`return err`), otherwise the list of actions taken. -/
def daemonLoop {σ : Type} (env : DaemonEnv σ) : Nat → σ → Except String (List String × σ)
  | 0, s => .ok ([], s)
  | fuel + 1, s =>
    match runDaemonIteration env s with
    | .error e => .error e
    | .ok (action, s2) =>
      match daemonLoop env fuel s2 with
      | .error e => .error e
      | .ok (actions, s3) => .ok (action :: actions, s3)

/-! ## Plan-field validation and bulk apply (intake source file / intake_apply.go) -/

/-- `intakePlanValidationError` (Path, Reason). -/
structure PlanError where
  path : String
  reason : String
deriving DecidableEq, Repr

/-- Modelled from the spec: the current `validateIntakePlanForApply` /
`validateIntakePlan` pair.  The repository snapshot under src contains
only legacy versions of the intake source file, without the task `ref`
field that `intake_apply.go` and its tests use, so the current validator
body is missing; this definition follows spec §3 ("all three fields
required non-empty", "ref is a plan-local identifier (unique across the
plan, non-empty)", "acceptanceCriteria[] (≥1 non-empty)") together with
the error paths asserted by the tests in src (epic fields, tasks
required/non-empty, per task: ref non-empty and unique, title,
description, acceptance criteria present and non-empty, dependency refs
non-empty).  Only failure-versus-success matters to the claims below. -/
def validateTasksForApply : List intakePlanTask → Nat → List String → Option PlanError
  | [], _, _ => none
  | task :: rest, i, earlierRefs =>
    let taskPath := "tasks[" ++ Nat.repr i ++ "]"
    if trimSpace task.ref = "" then some ⟨taskPath ++ ".ref", "must be non-empty"⟩
    else if trimSpace task.ref ∈ earlierRefs then
      some ⟨taskPath ++ ".ref", "must be unique"⟩
    else if trimSpace task.title = "" then some ⟨taskPath ++ ".title", "must be non-empty"⟩
    else if trimSpace task.description = "" then
      some ⟨taskPath ++ ".description", "must be non-empty"⟩
    else if task.acceptanceCriteria.length = 0 then
      some ⟨taskPath ++ ".acceptance_criteria", "must contain at least 1 item"⟩
    else if task.acceptanceCriteria.any (fun c => trimSpace c = "") then
      some ⟨taskPath ++ ".acceptance_criteria", "must be non-empty"⟩
    else if task.localDependencyRefs.any (fun d => trimSpace d = "") then
      some ⟨taskPath ++ ".local_dependency_refs", "must be non-empty"⟩
    else validateTasksForApply rest (i + 1) (trimSpace task.ref :: earlierRefs)

/-- Modelled from the spec: see `validateTasksForApply`. -/
def validateIntakePlanForApply (plan : intakePlan) : Option PlanError :=
  if trimSpace plan.epic.title = "" then some ⟨"epic.title", "must be non-empty"⟩
  else if trimSpace plan.epic.description = "" then
    some ⟨"epic.description", "must be non-empty"⟩
  else if trimSpace plan.epic.priority = "" then
    some ⟨"epic.priority", "must be non-empty"⟩
  else if plan.tasks.length = 0 then some ⟨"tasks", "must contain at least 1 task"⟩
  else validateTasksForApply plan.tasks 0 []

/-- `intakeApplyResult`. -/
structure intakeApplyResult where
  epicID : String
  taskIDs : List String
deriving DecidableEq, Repr

/-- Error of one `createBDIssue` call: the runner failed, or its output
could not be parsed into an issue id. -/
inductive CreateError where
  | runFailed (issueType title msg : String)
  | parseFailed (msg : String)
deriving DecidableEq, Repr

/-- The error cases of `applyIntakePlanWithRunner`, one constructor per
return site. -/
inductive ApplyError where
  | nilRunner
  | planInvalid (e : PlanError)
  | depGraph (e : IntakeError)
  | epicCreate (e : CreateError)
  | taskCreate (i : Nat) (e : CreateError)
  | depAdd (blockedRef blockerRef : String) (msg : String)
deriving DecidableEq, Repr

/-- The injected `intakeBDRunner`.  The Go runner is a stateful closure;
it is modelled as a function of the full call history (the list of
argument vectors issued so far) and the current argument vector, which
covers every deterministic runner, including the repository's own
scripted test stubs. -/
def IntakeRunner : Type := List (List String) → List String → Except String String

/-- `createBDIssue` from intake_apply.go: assemble the `bd create`
argument vector, invoke the runner, and parse the created issue id.
`parseID` stands for `parseCreatedIssueID`, whose JSON decoding is
outside every claim; it is kept abstract and universally quantified.
Returns the result together with the extended call history. -/
def createBDIssue (parseID : String → Except String String) (run : IntakeRunner)
    (calls : List (List String))
    (issueType title description priority parent : String)
    (acceptanceCriteria : List String) :
    Except CreateError String × List (List String) :=
  let args :=
    ["create", "--type", issueType, "--title", title, "--description", description,
      "--priority", priority] ++
    (if parent ≠ "" then ["--parent", parent] else []) ++
    (if acceptanceCriteria.length > 0 then
      ["--acceptance", String.intercalate "\n" acceptanceCriteria]
    else []) ++
    ["--json"]
  let calls2 := calls ++ [args]
  match run calls args with
  | .error e => (.error (.runFailed issueType title e), calls2)
  | .ok output =>
    match parseID output with
    | .error pe => (.error (.parseFailed pe), calls2)
    | .ok createdID => (.ok createdID, calls2)

/-- The task-creation loop of `applyIntakePlanWithRunner`, accumulating
`result.TaskIDs` and `createdTaskIDsByRef`. -/
def createPlanTasks (parseID : String → Except String String) (run : IntakeRunner)
    (epicID priority : String) :
    List intakePlanTask → Nat → List (List String) → List String →
    List (String × String) →
    Except ApplyError (List String × List (String × String)) × List (List String)
  | [], _, calls, taskIDs, byRef => (.ok (taskIDs, byRef), calls)
  | task :: rest, i, calls, taskIDs, byRef =>
    match createBDIssue parseID run calls "task" task.title task.description priority
        epicID task.acceptanceCriteria with
    | (.error ce, calls2) => (.error (.taskCreate i ce), calls2)
    | (.ok taskID, calls2) =>
      createPlanTasks parseID run epicID priority rest (i + 1) calls2
        (taskIDs ++ [taskID]) (alInsert byRef (trimSpace task.ref) taskID)

/-- The dependency-creation loop of `applyIntakePlanWithRunner`: replay
the pre-validated edges as `bd dep add` calls, translating refs through
`createdTaskIDsByRef` (a missing key reads "", as a Go map does). -/
def createPlanDeps (run : IntakeRunner) (byRef : List (String × String)) :
    List intakeDependencyEdge → List (List String) →
    Except ApplyError Unit × List (List String)
  | [], calls => (.ok (), calls)
  | edge :: rest, calls =>
    let blockedID := (byRef.lookup edge.blockedRef).getD ""
    let blockerID := (byRef.lookup edge.blockerRef).getD ""
    let args := ["dep", "add", blockedID, blockerID]
    let calls2 := calls ++ [args]
    match run calls args with
    | .error msg => (.error (.depAdd edge.blockedRef edge.blockerRef msg), calls2)
    | .ok _ => createPlanDeps run byRef rest calls2

/-- `applyIntakePlanWithRunner` from intake_apply.go, paired with the
complete list of runner invocations (the observation the repository's
own call-counting test stubs make). -/
def applyIntakePlanWithRunner (parseID : String → Except String String)
    (runOpt : Option IntakeRunner) (plan : intakePlan) :
    Except ApplyError intakeApplyResult × List (List String) :=
  match runOpt with
  | none => (.error .nilRunner, [])
  | some run =>
    match validateIntakePlanForApply plan with
    | some e => (.error (.planInvalid e), [])
    | none =>
      match validateAndCollectDependencyEdges plan with
      | .error e => (.error (.depGraph e), [])
      | .ok dependencyEdges =>
        match createBDIssue parseID run [] "epic" plan.epic.title plan.epic.description
            plan.epic.priority "" [] with
        | (.error ce, calls) => (.error (.epicCreate ce), calls)
        | (.ok epicID, calls) =>
          match createPlanTasks parseID run epicID plan.epic.priority plan.tasks 0
              calls [] [] with
          | (.error e, calls2) => (.error e, calls2)
          | (.ok (taskIDs, byRef), calls2) =>
            match createPlanDeps run byRef dependencyEdges calls2 with
            | (.error e, calls3) => (.error e, calls3)
            | (.ok _, calls3) => (.ok ⟨epicID, taskIDs⟩, calls3)

/-! ## Helper lemmas: claim resolver -/

/-- A successful `firstWorkItemMatch` selects the trimmed id of some
member of the scanned snapshot. -/
theorem firstWorkItemMatch_some {workItems : List (String × bdListIssue)}
    {l : List bdListIssue} {issueId : String}
    (h : firstWorkItemMatch workItems l = some issueId) :
    ∃ c ∈ l, issueId = trimSpace c.id ∧ (workItems.lookup (trimSpace c.id)).isSome = true := by
  induction l with
  | nil => simp [firstWorkItemMatch] at h
  | cons c rest ih =>
    by_cases hc : (workItems.lookup (trimSpace c.id)).isSome = true
    · refine ⟨c, by simp, ?_, hc⟩
      simp [firstWorkItemMatch, hc] at h
      exact h.symm
    · simp only [firstWorkItemMatch, hc] at h
      simp only [Bool.false_eq_true, if_false] at h
      obtain ⟨c2, hmem, hrest⟩ := ih h
      exact ⟨c2, by simp [hmem], hrest⟩

/-- If some snapshot member's trimmed id is a `workItems` key, the scan
finds a match. -/
theorem firstWorkItemMatch_isSome {workItems : List (String × bdListIssue)}
    {l : List bdListIssue} {c : bdListIssue} (hmem : c ∈ l)
    (hkey : (workItems.lookup (trimSpace c.id)).isSome = true) :
    (firstWorkItemMatch workItems l).isSome = true := by
  induction l with
  | nil => simp at hmem
  | cons c0 rest ih =>
    by_cases hc : (workItems.lookup (trimSpace c0.id)).isSome = true
    · simp [firstWorkItemMatch, hc]
    · simp only [firstWorkItemMatch, hc, Bool.false_eq_true, if_false]
      rcases List.mem_cons.mp hmem with h0 | h0
      · subst h0; exact absurd hkey hc
      · exact ih h0

/-- If no snapshot member's trimmed id is a `workItems` key, the scan
finds nothing. -/
theorem firstWorkItemMatch_none {workItems : List (String × bdListIssue)}
    {l : List bdListIssue}
    (h : ∀ c ∈ l, workItems.lookup (trimSpace c.id) = none) :
    firstWorkItemMatch workItems l = none := by
  induction l with
  | nil => rfl
  | cons c rest ih =>
    have hc : workItems.lookup (trimSpace c.id) = none := h c (by simp)
    simp only [firstWorkItemMatch, hc, Option.isSome_none, Bool.false_eq_true, if_false]
    exact ih fun c2 hmem => h c2 (by simp [hmem])

/-- The in-progress filter keeps only members of the snapshot. -/
theorem filterClaimInProgress_subset {deps : String → List bdListIssue}
    {l : List bdListIssue} {c : bdListIssue}
    (h : c ∈ filterClaimInProgress deps l) : c ∈ l := by
  induction l with
  | nil => simp [filterClaimInProgress] at h
  | cons c0 rest ih =>
    by_cases h0 : trimSpace c0.id = ""
    · simp only [filterClaimInProgress, h0, if_true] at h
      exact List.mem_cons.mpr (Or.inr (ih h))
    · by_cases h1 : hasOpenBlockingDependencies (deps (trimSpace c0.id)) = true
      · simp only [filterClaimInProgress, h0, if_false, h1, if_true] at h
        exact List.mem_cons.mpr (Or.inr (ih h))
      · simp only [filterClaimInProgress, h0, if_false, h1] at h
        rcases List.mem_cons.mp h with h2 | h2
        · exact List.mem_cons.mpr (Or.inl h2)
        · exact List.mem_cons.mpr (Or.inr (ih h2))

/-- Membership characterization of the in-progress filter: a candidate
survives exactly when it is in the snapshot, its trimmed id is
non-empty, and its fresh dependency read shows no open blocker. -/
theorem filterClaimInProgress_mem {deps : String → List bdListIssue}
    {l : List bdListIssue} {c : bdListIssue} :
    c ∈ filterClaimInProgress deps l ↔
      (c ∈ l ∧ trimSpace c.id ≠ "" ∧
        hasOpenBlockingDependencies (deps (trimSpace c.id)) = false) := by
  induction l with
  | nil => simp [filterClaimInProgress]
  | cons c0 rest ih =>
    by_cases h0 : trimSpace c0.id = ""
    · simp only [filterClaimInProgress, h0, if_true]
      rw [ih]
      constructor
      · rintro ⟨hm, hrest⟩
        exact ⟨List.mem_cons.mpr (Or.inr hm), hrest⟩
      · rintro ⟨hm, hid, hdep⟩
        rcases List.mem_cons.mp hm with h2 | h2
        · subst h2; exact absurd h0 hid
        · exact ⟨h2, hid, hdep⟩
    · by_cases h1 : hasOpenBlockingDependencies (deps (trimSpace c0.id)) = true
      · simp only [filterClaimInProgress, h0, if_false, h1, if_true]
        rw [ih]
        constructor
        · rintro ⟨hm, hrest⟩
          exact ⟨List.mem_cons.mpr (Or.inr hm), hrest⟩
        · rintro ⟨hm, hid, hdep⟩
          rcases List.mem_cons.mp hm with h2 | h2
          · subst h2; rw [h1] at hdep; exact absurd hdep (by simp)
          · exact ⟨h2, hid, hdep⟩
      · simp only [filterClaimInProgress, h0, if_false, h1]
        simp only [Bool.not_eq_true] at h1
        constructor
        · intro hm
          rcases List.mem_cons.mp hm with h2 | h2
          · subst h2; exact ⟨by simp, h0, h1⟩
          · have := ih.mp h2
            exact ⟨List.mem_cons.mpr (Or.inr this.1), this.2⟩
        · rintro ⟨hm, hid, hdep⟩
          rcases List.mem_cons.mp hm with h2 | h2
          · subst h2; exact List.mem_cons.mpr (Or.inl rfl)
          · exact List.mem_cons.mpr (Or.inr (ih.mpr ⟨h2, hid, hdep⟩))

/-! ## C7: status normalizer -/

/-- An issue whose raw status is literally `in_review`, with no labels. -/
def rawInReviewIssue : bdListIssue :=
  { id := "bd-1", title := "t", status := "in_review", issueType := "task",
    labels := [], commentCount := 0, dependencyType := "" }

/-- C7 counterexample: `workflowStatusForIssue` returns `in_review` for
an issue whose trimmed lower-cased raw status is `in_review` even though
it is not `blocked`-with-review-label, so "returns `in_review` exactly
when the trimmed lower-cased raw status equals `blocked` and the review
label is present" is false: the pass-through branch can also produce
`in_review`. -/
theorem C7_counterexample :
    workflowStatusForIssue rawInReviewIssue = "in_review" ∧
      ¬ (lowerAscii (trimSpace rawInReviewIssue.status) = "blocked" ∧
        hasLabel rawInReviewIssue.labels reviewQueueLabel = true) := by
  constructor
  · rfl
  · intro h
    exact absurd h.1 (by decide)

/-- C7 (amended): `workflowStatusForIssue` is total; it returns
`in_review` when the trimmed lower-cased raw status is `blocked` and the
review-queue label is present (case-insensitively, after trimming), and
otherwise returns the trimmed lower-cased raw status unchanged — hence
it returns `in_review` exactly when that condition holds or the raw
status itself trims and lower-cases to `in_review`. -/
theorem C7_workflowStatus_amended (issue : bdListIssue) :
    ((lowerAscii (trimSpace issue.status) = "blocked" ∧
        hasLabel issue.labels reviewQueueLabel = true) →
      workflowStatusForIssue issue = "in_review") ∧
    (¬ (lowerAscii (trimSpace issue.status) = "blocked" ∧
        hasLabel issue.labels reviewQueueLabel = true) →
      workflowStatusForIssue issue = lowerAscii (trimSpace issue.status)) ∧
    (workflowStatusForIssue issue = "in_review" ↔
      ((lowerAscii (trimSpace issue.status) = "blocked" ∧
          hasLabel issue.labels reviewQueueLabel = true) ∨
        lowerAscii (trimSpace issue.status) = "in_review")) := by
  by_cases h : lowerAscii (trimSpace issue.status) = "blocked" ∧
      hasLabel issue.labels reviewQueueLabel = true
  · refine ⟨fun _ => ?_, fun hn => absurd h hn, ?_⟩
    · simp [workflowStatusForIssue, h.1, h.2]
    · simp [workflowStatusForIssue, h.1, h.2]
  · have hval : workflowStatusForIssue issue = lowerAscii (trimSpace issue.status) := by
      show (if lowerAscii (trimSpace issue.status) = "blocked" ∧
          hasLabel issue.labels reviewQueueLabel = true then "in_review"
        else lowerAscii (trimSpace issue.status)) = lowerAscii (trimSpace issue.status)
      rw [if_neg h]
    refine ⟨fun hc => absurd hc h, fun _ => hval, ?_⟩
    rw [hval]
    constructor
    · exact fun hv => Or.inr hv
    · rintro (hc | hv)
      · exact absurd hc h
      · exact hv

/-- C7 witness: the amended theorem evaluated on a `blocked` issue with
the review label (normalizes to `in_review`) and on the same raw status
without the label (stays `blocked`). -/
theorem C7_workflowStatus_amended_witness :
    workflowStatusForIssue
        { id := "bd-2", title := "t", status := "blocked", issueType := "task",
          labels := ["yoke:in_review"], commentCount := 0, dependencyType := "" } =
      "in_review" ∧
    workflowStatusForIssue
        { id := "bd-3", title := "t", status := "blocked", issueType := "task",
          labels := [], commentCount := 0, dependencyType := "" } = "blocked" := by
  constructor
  · exact (C7_workflowStatus_amended _).1 (by exact ⟨rfl, rfl⟩)
  · exact ((C7_workflowStatus_amended _).2.1 (by intro h; exact absurd h.2 (by decide)))

/-! ## C4: in-progress beats ready in pickEpicChildToClaim -/

/-- C4: whenever some member of the filtered non-epic descendant set
appears in the in-progress snapshot, `pickEpicChildToClaim` selects the
trimmed id of an in-progress member (with `epicComplete = false`), never
an item that appears only in the ready list. -/
theorem C4_pick_prefers_inProgress (descendants inProgress ready : List bdListIssue)
    (candidate : bdListIssue) (hmem : candidate ∈ inProgress)
    (hkey : ((claimWorkItems descendants).lookup (trimSpace candidate.id)).isSome = true) :
    ∃ chosen ∈ inProgress,
      pickEpicChildToClaim descendants inProgress ready = (trimSpace chosen.id, false) := by
  have hne : claimWorkItems descendants ≠ [] := by
    intro hempty
    rw [hempty] at hkey
    simp [List.lookup] at hkey
  have hsome := firstWorkItemMatch_isSome hmem hkey
  obtain ⟨issueId, hid⟩ := Option.isSome_iff_exists.mp hsome
  obtain ⟨chosen, hcmem, hcid, _⟩ := firstWorkItemMatch_some hid
  refine ⟨chosen, hcmem, ?_⟩
  unfold pickEpicChildToClaim
  simp only [hne, if_false, hid]
  rw [hcid]

/-- Task `bd-epic.1`, open (test data of the claim-priority scenario). -/
def openChildA : bdListIssue :=
  { id := "bd-epic.1", title := "", status := "open", issueType := "task",
    labels := [], commentCount := 0, dependencyType := "" }

/-- Task `bd-epic.2`, open (test data of the claim-priority scenario). -/
def openChildB : bdListIssue :=
  { id := "bd-epic.2", title := "", status := "open", issueType := "task",
    labels := [], commentCount := 0, dependencyType := "" }

/-- Task `bd-epic.2` as it appears in the in-progress snapshot. -/
def inProgressChildB : bdListIssue :=
  { id := "bd-epic.2", title := "", status := "in_progress", issueType := "task",
    labels := [], commentCount := 0, dependencyType := "" }

/-- C4 witness: descendants `{A, B}` both open, `inProgress = {B}`,
`ready = {A}` selects `B` (the repository's own
`TestPickEpicChildToClaimPrefersInProgress` scenario). -/
theorem C4_pick_prefers_inProgress_witness :
    ∃ chosen ∈ [inProgressChildB],
      pickEpicChildToClaim [openChildA, openChildB] [inProgressChildB] [openChildA] =
        (trimSpace chosen.id, false) :=
  C4_pick_prefers_inProgress _ _ _ inProgressChildB (by simp) (by decide)

/-! ## C5: complete versus stalled containers -/

/-- C5: when the filtered non-epic descendant set is non-empty and no
in-progress or ready snapshot member is selectable, `resolveClaimIssue`
on a non-closed epic reports `containerComplete = true` with an empty
selection if every member is closed, and otherwise returns the
no-claimable-child error with `containerComplete = false` — the stalled
outcome is never conflated with completion. -/
theorem C5_complete_vs_stall (issue : String) (env : ClaimEnv)
    (hEpic : equalFold (trimSpace env.details.issueType) "epic" = true)
    (hOpen : workflowStatusForIssue env.details ≠ "closed")
    (hNe : claimWorkItems env.descendants ≠ [])
    (hIP : ∀ c ∈ env.inProgress,
      (claimWorkItems env.descendants).lookup (trimSpace c.id) = none)
    (hR : ∀ c ∈ env.ready,
      (claimWorkItems env.descendants).lookup (trimSpace c.id) = none) :
    ((∀ kv ∈ claimWorkItems env.descendants, workflowStatusForIssue kv.2 = "closed") →
      resolveClaimIssue issue env = ⟨"", true, none⟩) ∧
    ((∃ kv ∈ claimWorkItems env.descendants, workflowStatusForIssue kv.2 ≠ "closed") →
      (resolveClaimIssue issue env).containerComplete = false ∧
        (resolveClaimIssue issue env).err.isSome = true) := by
  have hFIP : firstWorkItemMatch (claimWorkItems env.descendants)
      (filterClaimInProgress env.deps env.inProgress) = none :=
    firstWorkItemMatch_none fun c hc => hIP c (filterClaimInProgress_subset hc)
  have hFR : firstWorkItemMatch (claimWorkItems env.descendants) env.ready = none :=
    firstWorkItemMatch_none hR
  have hres : resolveClaimIssue issue env = resolveClaimSelection issue env := by
    unfold resolveClaimIssue
    rw [if_neg (by simp [hEpic]), if_neg hOpen]
  constructor
  · intro hall
    have hclosed : (claimWorkItems env.descendants).all
        (fun kv => workflowStatusForIssue kv.2 = "closed") = true := by
      rw [List.all_eq_true]
      intro kv hkv
      exact decide_eq_true (hall kv hkv)
    rw [hres]
    unfold resolveClaimSelection pickEpicChildToClaim
    simp only [hNe, if_false, hFIP, hFR, hclosed, if_true]
    rfl
  · intro ⟨kv, hkv, hne2⟩
    have hopen2 : (claimWorkItems env.descendants).all
        (fun kv => workflowStatusForIssue kv.2 = "closed") = false := by
      rw [List.all_eq_false]
      exact ⟨kv, hkv, by simpa using hne2⟩
    rw [hres]
    unfold resolveClaimSelection pickEpicChildToClaim
    simp only [hNe, if_false, hFIP, hFR, hopen2]
    simp

/-- An epic container issue used by the C5 witness. -/
def witnessEpic : bdListIssue :=
  { id := "bd-epic", title := "", status := "open", issueType := "epic",
    labels := [], commentCount := 0, dependencyType := "" }

/-- A closed child task used by the C5 witness. -/
def closedChildA : bdListIssue :=
  { id := "bd-epic.1", title := "", status := "closed", issueType := "task",
    labels := [], commentCount := 0, dependencyType := "" }

/-- A blocked child task used by the C5 witness. -/
def blockedChildB : bdListIssue :=
  { id := "bd-epic.2", title := "", status := "blocked", issueType := "task",
    labels := [], commentCount := 0, dependencyType := "" }

/-- C5 witness: for descendants `{A: closed, B: closed}` with empty
snapshots the resolver reports completion, and for `{A: blocked,
B: closed}` it reports a stall (`containerComplete = false`, error set) —
the repository's `TestPickEpicChildToClaimComplete`/`Blocked` scenarios
lifted to `resolveClaimIssue`. -/
theorem C5_complete_vs_stall_witness :
    resolveClaimIssue "bd-epic"
        { details := witnessEpic, descendants := [closedChildA], inProgress := [],
          ready := [], deps := fun _ => [] } = ⟨"", true, none⟩ ∧
    (resolveClaimIssue "bd-epic"
        { details := witnessEpic, descendants := [blockedChildB, closedChildA],
          inProgress := [], ready := [], deps := fun _ => [] }).containerComplete =
      false ∧
    (resolveClaimIssue "bd-epic"
        { details := witnessEpic, descendants := [blockedChildB, closedChildA],
          inProgress := [], ready := [], deps := fun _ => [] }).err.isSome = true := by
  refine ⟨?_, ?_⟩
  · exact (C5_complete_vs_stall "bd-epic" _ (by decide) (by decide) (by decide)
      (by intro c hc; simp at hc) (by intro c hc; simp at hc)).1
      (by intro kv hkv; simp [claimWorkItems, alInsert] at hkv; rw [hkv.2.2]; rfl)
  · exact (C5_complete_vs_stall "bd-epic" _ (by decide) (by decide) (by decide)
      (by intro c hc; simp at hc) (by intro c hc; simp at hc)).2
      ⟨("bd-epic.2", blockedChildB), by decide, by decide⟩

/-! ## C3: dependency-aware candidate exclusion -/

/-- The ready child used by the C3 counterexample: a task that still has
an open `blocks`-typed dependency. -/
def readyBlockedChild : bdListIssue :=
  { id := "bd-a", title := "", status := "open", issueType := "task",
    labels := [], commentCount := 0, dependencyType := "" }

/-- An open `blocks`-typed dependency row. -/
def openBlocksDep : bdListIssue :=
  { id := "bd-x", title := "", status := "open", issueType := "task",
    labels := [], commentCount := 0, dependencyType := "blocks" }

/-- The C3 counterexample environment: one ready candidate carrying an
open hard blocker. -/
def c3Env : ClaimEnv :=
  { details := witnessEpic, descendants := [readyBlockedChild], inProgress := [],
    ready := [readyBlockedChild], deps := fun i => if i = "bd-a" then [openBlocksDep] else [] }

/-- C3 counterexample: a ready-snapshot candidate with an open
`blocks`-typed dependency edge is not excluded by `resolveClaimIssue` —
it is selected.  Only the in-progress snapshot passes through the
`issueHasOpenBlockingDependencies` filter; the ready snapshot is used as
delivered by the tracker's ready-only listing. -/
theorem C3_counterexample :
    resolveClaimIssue "bd-epic" c3Env = ⟨"bd-a", false, none⟩ ∧
      hasOpenBlockingDependencies (c3Env.deps (trimSpace readyBlockedChild.id)) = true := by
  exact ⟨rfl, rfl⟩

/-- C3 (amended): inside `resolveClaimIssue` only the in-progress
snapshot is filtered against open `blocks`-typed dependency edges: every
in-progress candidate whose fresh dependency read shows an open blocker
is excluded from the list handed to `pickEpicChildToClaim`
(`filterClaimInProgress`, the loop at the head of the selection tail);
ready candidates receive no such in-process check. -/
theorem C3_inProgress_filter_amended (deps : String → List bdListIssue)
    (inProgress : List bdListIssue) (candidate : bdListIssue)
    (hblocked : hasOpenBlockingDependencies (deps (trimSpace candidate.id)) = true) :
    candidate ∉ filterClaimInProgress deps inProgress := by
  intro hcontra
  have hchar := filterClaimInProgress_mem.mp hcontra
  rw [hblocked] at hchar
  exact absurd hchar.2.2 (by simp)

/-- C3 witness: the amended filtering fact at the counterexample's data —
the blocked candidate does not survive `filterClaimInProgress` when it
sits in the in-progress snapshot. -/
theorem C3_inProgress_filter_amended_witness :
    readyBlockedChild ∉ filterClaimInProgress c3Env.deps [readyBlockedChild] :=
  C3_inProgress_filter_amended c3Env.deps [readyBlockedChild] readyBlockedChild (by decide)

/-! ## C6: daemon no-progress enforcement -/

/-- The C6 counterexample environment: nothing reviewable or in
progress, one ready issue, and a claim action that leaves the world (and
hence every status) unchanged. -/
def c6Env : DaemonEnv Unit :=
  { reviewable := fun _ => "", focusedOrInProgress := fun _ => "",
    next := fun _ => "i1", statusOf := fun _ _ => "open",
    runRole := fun _ _ s => s, runClaim := fun _ s => s,
    checkoutBranch := fun _ s => s }

/-- C6 counterexample: the claim action (action 3) has no pre/post
status check — an iteration that claims an issue whose status does not
change still succeeds, so "for each of the three non-idle actions ... if
the status is unchanged, the iteration returns an error" is false for
the claim action. -/
theorem C6_counterexample :
    runDaemonIteration c6Env () = .ok ("claimed i1", ()) ∧
      c6Env.statusOf (c6Env.runClaim "i1" ()) "i1" = c6Env.statusOf () "i1" :=
  ⟨rfl, rfl⟩

/-- C6 (amended): for the review and write actions (which run through
`runDaemonRoleCommand`), the item's status is captured before the
external command and re-read after it; if unchanged, the iteration
returns the no-progress error and the daemon loop stops with that error
instead of iterating again.  The claim action performs no such check. -/
theorem C6_role_no_progress_amended {σ : Type} (env : DaemonEnv σ) (s : σ) (n : Nat)
    (h : (env.reviewable s ≠ "" ∧
        env.statusOf (env.runRole "reviewer" (env.reviewable s) s) (env.reviewable s) =
          env.statusOf s (env.reviewable s)) ∨
      (env.reviewable s = "" ∧ env.focusedOrInProgress s ≠ "" ∧
        env.statusOf
            (env.runRole "writer" (env.focusedOrInProgress s)
              (env.checkoutBranch (env.focusedOrInProgress s) s))
            (env.focusedOrInProgress s) =
          env.statusOf (env.checkoutBranch (env.focusedOrInProgress s) s)
            (env.focusedOrInProgress s))) :
    ∃ e, runDaemonIteration env s = .error e ∧ daemonLoop env (n + 1) s = .error e := by
  rcases h with ⟨hrev, hsame⟩ | ⟨hnorev, hip, hsame⟩
  · have hcmd : runDaemonRoleCommand env "reviewer" (env.reviewable s) s =
        .error ("reviewer" ++ " command did not advance issue " ++ env.reviewable s ++
          " (still " ++ env.statusOf (env.runRole "reviewer" (env.reviewable s) s)
            (env.reviewable s) ++ "); ensure the command transitions bd state") := by
      unfold runDaemonRoleCommand
      rw [if_pos hsame]
    have hiter : runDaemonIteration env s = .error ("reviewer" ++
        " command did not advance issue " ++ env.reviewable s ++ " (still " ++
        env.statusOf (env.runRole "reviewer" (env.reviewable s) s) (env.reviewable s) ++
        "); ensure the command transitions bd state") := by
      unfold runDaemonIteration
      rw [if_pos hrev, hcmd]
    have hloop : daemonLoop env (n + 1) s = .error ("reviewer" ++
        " command did not advance issue " ++ env.reviewable s ++ " (still " ++
        env.statusOf (env.runRole "reviewer" (env.reviewable s) s) (env.reviewable s) ++
        "); ensure the command transitions bd state") := by
      unfold daemonLoop
      rw [hiter]
    exact ⟨_, hiter, hloop⟩
  · have hcmd : runDaemonRoleCommand env "writer" (env.focusedOrInProgress s)
        (env.checkoutBranch (env.focusedOrInProgress s) s) =
        .error ("writer" ++ " command did not advance issue " ++ env.focusedOrInProgress s ++
          " (still " ++ env.statusOf
            (env.runRole "writer" (env.focusedOrInProgress s)
              (env.checkoutBranch (env.focusedOrInProgress s) s))
            (env.focusedOrInProgress s) ++ "); ensure the command transitions bd state") := by
      unfold runDaemonRoleCommand
      rw [if_pos hsame]
    have hiter : runDaemonIteration env s = .error ("writer" ++
        " command did not advance issue " ++ env.focusedOrInProgress s ++ " (still " ++
        env.statusOf
          (env.runRole "writer" (env.focusedOrInProgress s)
            (env.checkoutBranch (env.focusedOrInProgress s) s))
          (env.focusedOrInProgress s) ++ "); ensure the command transitions bd state") := by
      unfold runDaemonIteration
      rw [if_neg (by simpa using hnorev), if_pos hip]
      show (match runDaemonRoleCommand env "writer" (env.focusedOrInProgress s)
          (env.checkoutBranch (env.focusedOrInProgress s) s) with
        | Except.error e => Except.error e
        | Except.ok s2 => Except.ok ("wrote " ++ env.focusedOrInProgress s, s2)) = _
      rw [hcmd]
    have hloop : daemonLoop env (n + 1) s = .error ("writer" ++
        " command did not advance issue " ++ env.focusedOrInProgress s ++ " (still " ++
        env.statusOf
          (env.runRole "writer" (env.focusedOrInProgress s)
            (env.checkoutBranch (env.focusedOrInProgress s) s))
          (env.focusedOrInProgress s) ++ "); ensure the command transitions bd state") := by
      unfold daemonLoop
      rw [hiter]
    exact ⟨_, hiter, hloop⟩

/-- The C6 witness environment: one reviewable issue, and a reviewer
command that does not change its status. -/
def c6StallEnv : DaemonEnv Unit :=
  { reviewable := fun _ => "r1", focusedOrInProgress := fun _ => "",
    next := fun _ => "", statusOf := fun _ _ => "blocked",
    runRole := fun _ _ s => s, runClaim := fun _ s => s,
    checkoutBranch := fun _ s => s }

/-- C6 witness: a reviewer action that leaves the status unchanged makes
the iteration — and the surrounding loop — return an error rather than
loop again. -/
theorem C6_role_no_progress_amended_witness :
    ∃ e, runDaemonIteration c6StallEnv () = .error e ∧
      daemonLoop c6StallEnv 1 () = .error e :=
  C6_role_no_progress_amended c6StallEnv () 0 (Or.inl ⟨by decide, rfl⟩)

/-! ## C1: validation is total before mutation -/

/-- C1: for every plan and every injected runner, a plan-field
validation failure or a dependency-edge validation failure makes
`applyIntakePlanWithRunner` return exactly that error with an empty call
history: the runner is never invoked — no epic-creation, task-creation
or dependency-creation call is issued — and no partial edge list exists
(the failing validator returns an error, not a list). -/
theorem C1_apply_validates_before_mutation (parseID : String → Except String String)
    (run : IntakeRunner) (plan : intakePlan) :
    (∀ e, validateIntakePlanForApply plan = some e →
      applyIntakePlanWithRunner parseID (some run) plan = (.error (.planInvalid e), [])) ∧
    (∀ e, validateIntakePlanForApply plan = none →
      validateAndCollectDependencyEdges plan = .error e →
      applyIntakePlanWithRunner parseID (some run) plan = (.error (.depGraph e), [])) := by
  constructor
  · intro e he
    unfold applyIntakePlanWithRunner
    rw [he]
  · intro e hok herr
    unfold applyIntakePlanWithRunner
    rw [hok, herr]

/-- A plan with an empty epic title (plan-field validation fails). -/
def badFieldPlan : intakePlan :=
  { epic := { title := "", description := "D", priority := "high" },
    tasks := [{ ref := "a", title := "T", description := "d",
                acceptanceCriteria := ["c"], localDependencyRefs := [] }] }

/-- A plan whose only dependency ref is unknown (edge validation fails). -/
def badEdgePlan : intakePlan :=
  { epic := { title := "E", description := "D", priority := "high" },
    tasks := [{ ref := "a", title := "T", description := "d",
                acceptanceCriteria := ["c"], localDependencyRefs := ["zz"] }] }

/-- A runner that records nothing and always succeeds, used to witness
that it is never consulted. -/
def happyRunner : IntakeRunner := fun _ _ => .ok "bd-1"

/-- C1 witness: the theorem evaluated at a plan with an empty epic title
and at a plan with an unknown dependency ref — both fail with the
corresponding validation error and an empty call history. -/
theorem C1_apply_validates_before_mutation_witness :
    applyIntakePlanWithRunner (fun s => .ok s) (some happyRunner) badFieldPlan =
      (.error (.planInvalid ⟨"epic.title", "must be non-empty"⟩), []) ∧
    applyIntakePlanWithRunner (fun s => .ok s) (some happyRunner) badEdgePlan =
      (.error (.depGraph (.unknownRef "zz" 0 0)), []) :=
  ⟨(C1_apply_validates_before_mutation (fun s => .ok s) happyRunner badFieldPlan).1
      ⟨"epic.title", "must be non-empty"⟩ rfl,
    (C1_apply_validates_before_mutation (fun s => .ok s) happyRunner badEdgePlan).2
      (.unknownRef "zz" 0 0) rfl rfl⟩

/-! ## Cycles in the ref dependency graph -/

/-- A directed cycle in an adjacency function: a non-empty node list
`v :: vs` with an edge between consecutive nodes and a closing edge from
the last node back to `v`.  Length 1 (`[v]` with `v ∈ adj v`) is a
self-loop. -/
def isCycle (adj : String → List String) : List String → Prop
  | [] => False
  | v :: vs => List.Chain (fun a b => b ∈ adj a) v (vs ++ [v])

/-- Every element of the tail of a chain has a predecessor in the chain. -/
theorem chain_pred {R : String → String → Prop} :
    ∀ (a : String) (l : List String), List.Chain R a l →
      ∀ x ∈ l, ∃ w ∈ a :: l, R w x := by
  intro a l
  induction l generalizing a with
  | nil => intro _ x hx; simp at hx
  | cons b t ih =>
    intro h x hx
    rw [List.chain_cons] at h
    rcases List.mem_cons.mp hx with hxb | hxt
    · exact ⟨a, by simp, hxb ▸ h.1⟩
    · obtain ⟨w, hw, hR⟩ := ih b h.2 x hxt
      exact ⟨w, by simp [List.mem_cons.mp hw], hR⟩

/-- Every element of a chain except the final one has a successor in the
chain body. -/
theorem chain_succ {R : String → String → Prop} :
    ∀ (a : String) (l : List String), List.Chain R a l → l ≠ [] →
      ∀ x ∈ a :: l.dropLast, ∃ y ∈ l, R x y := by
  intro a l
  induction l generalizing a with
  | nil => intro _ hne; exact absurd rfl hne
  | cons b t ih =>
    intro h _ x hx
    rw [List.chain_cons] at h
    cases t with
    | nil =>
      simp only [List.dropLast_single] at hx
      rcases List.mem_cons.mp hx with hxa | hxn
      · exact ⟨b, by simp, hxa ▸ h.1⟩
      · simp at hxn
    | cons c t2 =>
      rw [List.dropLast_cons₂] at hx
      rcases List.mem_cons.mp hx with hxa | hxbt
      · exact ⟨b, by simp, hxa ▸ h.1⟩
      · obtain ⟨y, hy, hR⟩ := ih b h.2 (by simp) x hxbt
        exact ⟨y, by simp [List.mem_cons.mp hy], hR⟩

/-- Every node on a cycle has an in-edge from a node on the cycle. -/
theorem isCycle_in_edge {adj : String → List String} {c : List String} {x : String}
    (hc : isCycle adj c) (hx : x ∈ c) : ∃ w ∈ c, x ∈ adj w := by
  cases c with
  | nil => exact absurd hc (by simp [isCycle])
  | cons v vs =>
    have hx2 : x ∈ vs ++ [v] := by
      rcases List.mem_cons.mp hx with h0 | h0
      · simp [h0]
      · simp [h0]
    obtain ⟨w, hw, hR⟩ := chain_pred v (vs ++ [v]) hc x hx2
    rcases List.mem_cons.mp hw with h0 | h0
    · exact ⟨w, by simp [h0], hR⟩
    · rcases List.mem_append.mp h0 with h1 | h1
      · exact ⟨w, by simp [h1], hR⟩
      · exact ⟨w, by simp [List.mem_singleton.mp h1], hR⟩

/-- Every node on a cycle has an out-edge (to a node on the cycle). -/
theorem isCycle_out_edge {adj : String → List String} {c : List String} {x : String}
    (hc : isCycle adj c) (hx : x ∈ c) : ∃ y ∈ c, y ∈ adj x := by
  cases c with
  | nil => exact absurd hc (by simp [isCycle])
  | cons v vs =>
    have hdrop : (vs ++ [v]).dropLast = vs := List.dropLast_concat ..
    obtain ⟨y, hy, hR⟩ := chain_succ v (vs ++ [v]) hc (by simp) x (by rw [hdrop]; exact hx)
    rcases List.mem_append.mp hy with h1 | h1
    · exact ⟨y, by simp [h1], hR⟩
    · exact ⟨y, by simp [List.mem_singleton.mp h1], hR⟩

/-- `getLastD` of a cons ignores the outer default. -/
theorem getLastD_cons_eq (a c : String) (t : List String) :
    (c :: t).getLastD a = t.getLastD c := by
  cases t with
  | nil => rfl
  | cons d t2 =>
    rw [List.getLastD_eq_getLast?, List.getLastD_eq_getLast?, List.getLast?_cons_cons,
      List.getLast?_eq_getLast_of_ne_nil (show d :: t2 ≠ [] by simp)]
    rfl

/-- Extending a chain by one edge hanging off its final element. -/
theorem chain_snoc {R : String → String → Prop} :
    ∀ (a : String) (l : List String) (b : String), List.Chain R a l →
      R (l.getLastD a) b → List.Chain R a (l ++ [b]) := by
  intro a l
  induction l generalizing a with
  | nil =>
    intro b _ hR
    simp only [List.getLastD_nil] at hR
    exact List.Chain.cons hR List.Chain.nil
  | cons c t ih =>
    intro b h hR
    rw [List.chain_cons] at h
    rw [List.cons_append, List.chain_cons]
    refine ⟨h.1, ih c b h.2 ?_⟩
    rw [← getLastD_cons_eq a c t]
    exact hR

/-! ## DFS state invariants -/

/-- Visit states are the three colors 0/1/2 only (true of every state
the algorithm constructs). -/
def StWF (st : String → Nat) : Prop := ∀ v, st v ≤ 2

/-- Every finished (black) node has only finished successors. -/
def BlackClosed (adj : String → List String) (st : String → Nat) : Prop :=
  ∀ u, st u = 2 → ∀ d ∈ adj u, st d = 2

/-- No cycle lies entirely among finished nodes. -/
def NoBlackCycle (adj : String → List String) (st : String → Nat) : Prop :=
  ∀ c, isCycle adj c → ¬ (∀ v ∈ c, st v = 2)

/-- The invariant a successful DFS run maintains. -/
def DfsInv (adj : String → List String) (st : String → Nat) : Prop :=
  BlackClosed adj st ∧ NoBlackCycle adj st

theorem upd_self (st : String → Nat) (r : String) (v : Nat) : upd st r v r = v := by
  simp [upd]

theorem upd_ne (st : String → Nat) (r : String) (v : Nat) {x : String} (h : x ≠ r) :
    upd st r v x = st x := by
  simp [upd, h]

theorem StWF_upd {st : String → Nat} (h : StWF st) (r : String) {v : Nat} (hv : v ≤ 2) :
    StWF (upd st r v) := by
  intro x
  by_cases hx : x = r
  · rw [hx, upd_self]; exact hv
  · rw [upd_ne st r v hx]; exact h x

/-- Composition of the one-visit state evolution with a subsequent
list-walk evolution, at a white pivot. -/
theorem dfs_step_compose {st stM stOut : String → Nat} {d : String} (hd : st d = 0)
    (h1 : ∀ v, stM v = st v ∨ ((st v = 0 ∨ v = d) ∧ stM v = 2))
    (h2 : ∀ v, stOut v = stM v ∨ (stM v = 0 ∧ stOut v = 2)) :
    ∀ v, stOut v = st v ∨ (st v = 0 ∧ stOut v = 2) := by
  intro v
  rcases h2 v with e2 | ⟨hM0, e2⟩
  · rcases h1 v with e1 | ⟨hc, e1⟩
    · exact Or.inl (e2.trans e1)
    · rcases hc with h0 | h0
      · exact Or.inr ⟨h0, e2.trans e1⟩
      · exact Or.inr ⟨h0 ▸ hd, e2.trans e1⟩
  · rcases h1 v with e1 | ⟨_, e1⟩
    · exact Or.inr ⟨e1 ▸ hM0, e2⟩
    · rw [e1] at hM0; exact absurd hM0 (by simp)

/-- The success bundle for the mutual DFS recursion, by induction on
fuel: a successful `dfsVisit`/`dfsList` run only promotes states (white
nodes may finish; in-progress and finished nodes are untouched except
the visited root, which finishes), finishes its root and every listed
neighbour, and preserves the DFS invariant. -/
theorem dfs_success_bundle (adj : String → List String) :
    ∀ fuel : Nat,
      (∀ st ref stOut, StWF st → dfsVisit adj fuel st ref = .okSt stOut →
        ((∀ v, stOut v = st v ∨ ((st v = 0 ∨ v = ref) ∧ stOut v = 2)) ∧
          stOut ref = 2 ∧
          (∀ d ∈ adj ref, stOut d = 2) ∧
          (st ref ≠ 2 → DfsInv adj st → DfsInv adj stOut))) ∧
      (∀ st l stOut, StWF st → dfsList adj fuel st l = .okSt stOut →
        ((∀ v, stOut v = st v ∨ (st v = 0 ∧ stOut v = 2)) ∧
          (∀ d ∈ l, stOut d = 2) ∧
          (DfsInv adj st → DfsInv adj stOut))) := by
  intro fuel
  induction fuel with
  | zero =>
    constructor
    · intro st ref stOut _ h
      simp [dfsVisit] at h
    · intro st l stOut _ h
      cases l with
      | nil =>
        simp only [dfsList, DfsRes.okSt.injEq] at h
        subst h
        exact ⟨fun v => Or.inl rfl, by simp, id⟩
      | cons d rest => simp [dfsList] at h
  | succ n ih =>
    obtain ⟨ihV, ihL⟩ := ih
    constructor
    · -- visit part
      intro st ref stOut hwf h
      have hwf1 : StWF (upd st ref 1) := StWF_upd hwf ref (by omega)
      rcases hl : dfsList adj n (upd st ref 1) (adj ref) with stMid | r | _
      rotate_left
      · simp only [dfsVisit, hl] at h
        cases h
      · simp only [dfsVisit, hl] at h
        cases h
      -- inner list walk succeeded
      · simp only [dfsVisit, hl, DfsRes.okSt.injEq] at h
        subst h
        obtain ⟨b1, b2, b3⟩ := ihL (upd st ref 1) (adj ref) stMid hwf1 hl
        have hMidRef : stMid ref = 1 := by
          rcases b1 ref with e | ⟨e0, _⟩
          · rw [e, upd_self]
          · rw [upd_self] at e0; exact absurd e0 (by simp)
        have hA1 : ∀ v, upd stMid ref 2 v = st v ∨
            ((st v = 0 ∨ v = ref) ∧ upd stMid ref 2 v = 2) := by
          intro v
          by_cases hv : v = ref
          · subst hv; exact Or.inr ⟨Or.inr rfl, upd_self ..⟩
          · rw [upd_ne stMid ref 2 hv]
            rcases b1 v with e | ⟨e0, e2⟩
            · rw [e, upd_ne st ref 1 hv]
              exact Or.inl rfl
            · rw [upd_ne st ref 1 hv] at e0
              exact Or.inr ⟨Or.inl e0, e2⟩
        have hA3 : ∀ d ∈ adj ref, upd stMid ref 2 d = 2 := by
          intro d hd
          by_cases hdv : d = ref
          · rw [hdv, upd_self]
          · rw [upd_ne stMid ref 2 hdv]; exact b2 d hd
        refine ⟨hA1, upd_self .., hA3, ?_⟩
        intro hne hinv
        -- invariant transported through the three stages
        have hinv1 : DfsInv adj (upd st ref 1) := by
          constructor
          · intro u hu d hd
            have hur : u ≠ ref := by
              intro he; rw [he, upd_self] at hu; exact absurd hu (by simp)
            rw [upd_ne st ref 1 hur] at hu
            have hdblack := hinv.1 u hu d hd
            have hdr : d ≠ ref := by
              intro he; rw [he] at hdblack; exact hne hdblack
            rw [upd_ne st ref 1 hdr]
            exact hdblack
          · intro c hc hall
            refine hinv.2 c hc fun v hv => ?_
            have := hall v hv
            have hvr : v ≠ ref := by
              intro he; rw [he, upd_self] at this; exact absurd this (by simp)
            rw [upd_ne st ref 1 hvr] at this
            exact this
        have hinvM : DfsInv adj stMid := b3 hinv1
        constructor
        · intro u hu d hd
          by_cases hur : u = ref
          · subst hur; exact hA3 d hd
          · rw [upd_ne stMid ref 2 hur] at hu
            have hdblack := hinvM.1 u hu d hd
            by_cases hdr : d = ref
            · rw [hdr, upd_self]
            · rw [upd_ne stMid ref 2 hdr]; exact hdblack
        · intro c hc hall
          by_cases hrc : ref ∈ c
          · obtain ⟨w, hwc, hwedge⟩ := isCycle_in_edge hc hrc
            by_cases hwr : w = ref
            · -- self-loop on ref: the walk would have finished ref already
              rw [hwr] at hwedge
              have := b2 ref hwedge
              rw [hMidRef] at this
              exact absurd this (by simp)
            · have hwblack := hall w hwc
              rw [upd_ne stMid ref 2 hwr] at hwblack
              have := hinvM.1 w hwblack ref hwedge
              rw [hMidRef] at this
              exact absurd this (by simp)
          · refine hinvM.2 c hc fun v hv => ?_
            have := hall v hv
            have hvr : v ≠ ref := fun he => hrc (he ▸ hv)
            rw [upd_ne stMid ref 2 hvr] at this
            exact this
    · -- list part
      intro st l stOut hwf h
      cases l with
      | nil =>
        simp only [dfsList, DfsRes.okSt.injEq] at h
        subst h
        exact ⟨fun v => Or.inl rfl, by simp, id⟩
      | cons d rest =>
        by_cases hd1 : st d = 1
        · simp [dfsList, hd1] at h
        · by_cases hd0 : st d = 0
          · simp only [dfsList, hd1, if_false, hd0, if_true] at h
            rcases hv : dfsVisit adj n st d with stM | r | _ <;> rw [hv] at h
            · obtain ⟨a1, a2, _, a4⟩ := ihV st d stM hwf hv
              have hwfM : StWF stM := by
                intro v
                rcases a1 v with e | ⟨_, e⟩
                · rw [e]; exact hwf v
                · rw [e]
              obtain ⟨b1, b2, b3⟩ := ihL stM rest stOut hwfM h
              refine ⟨dfs_step_compose hd0 a1 b1, ?_, ?_⟩
              · intro x hx
                rcases List.mem_cons.mp hx with hxd | hxr
                · subst hxd
                  rcases b1 x with e | ⟨_, e⟩
                  · rw [e]; exact a2
                  · exact e
                · exact b2 x hxr
              · intro hinv
                exact b3 (a4 (by rw [hd0]; simp) hinv)
            · simp at h
            · simp at h
          · -- skip branch: d is already finished (states are 0/1/2)
            have hd2 : st d = 2 := by have := hwf d; omega
            simp only [dfsList, hd1, if_false, hd0, if_false] at h
            obtain ⟨b1, b2, b3⟩ := ihL st rest stOut hwf h
            refine ⟨b1, ?_, b3⟩
            intro x hx
            rcases List.mem_cons.mp hx with hxd | hxr
            · subst hxd
              rcases b1 x with e | ⟨e0, e⟩
              · rw [e]; exact hd2
              · exact e
            · exact b2 x hxr

/-! ## DFS error analysis: the reported ref lies on a cycle -/

/-- The in-progress (gray) nodes form the current recursion stack: the
gray set is exactly `gs`, and consecutive stack entries are joined by
graph edges (root first). -/
def GrayStack (adj : String → List String) (st : String → Nat) (gs : List String) : Prop :=
  (∀ v, st v = 1 ↔ v ∈ gs) ∧ List.Chain' (fun a b => b ∈ adj a) gs

/-- Appending to a chained stack whose last element has an edge to the
new entry keeps it chained. -/
theorem chain'_snoc {R : String → String → Prop} (gs : List String) (w b : String)
    (h : List.Chain' R (gs ++ [w])) (hR : R w b) :
    List.Chain' R ((gs ++ [w]) ++ [b]) := by
  rw [List.chain'_append]
  refine ⟨h, List.chain'_singleton b, ?_⟩
  intro x hx y hy
  rw [List.getLast?_concat] at hx
  simp only [List.head?_cons, Option.mem_def, Option.some.injEq] at hx hy
  rw [← hx, ← hy]
  exact hR

/-- The stack found below an in-progress node closes into a cycle. -/
theorem grayStack_cycle {adj : String → List String} {gs0 : List String} {w d : String}
    (hchain : List.Chain' (fun a b => b ∈ adj a) (gs0 ++ [w]))
    (hmem : d ∈ gs0 ++ [w]) (hedge : d ∈ adj w) :
    ∃ c, isCycle adj c ∧ d ∈ c := by
  obtain ⟨pre, post, hsplit⟩ := List.append_of_mem hmem
  refine ⟨d :: post, ?_, by simp⟩
  have hsuffix : List.Chain' (fun a b => b ∈ adj a) (d :: post) :=
    hchain.suffix (by rw [hsplit]; exact ⟨pre, rfl⟩)
  have hchain2 : List.Chain (fun a b => b ∈ adj a) d post := hsuffix
  have hlast : (d :: post).getLast? = some w := by
    rw [← List.getLast?_append_cons pre d post, ← hsplit, List.getLast?_concat]
  have hlastD : post.getLastD d = w := by
    rw [← getLastD_cons_eq d d post, List.getLastD_eq_getLast?, hlast]
    rfl
  show List.Chain (fun a b => b ∈ adj a) d (post ++ [d])
  exact chain_snoc d post d hchain2 (by rw [hlastD]; exact hedge)

/-- The error bundle for the mutual DFS recursion: whenever a run
reports `cycleAt r` from a state whose gray nodes form a stack hanging
together by edges (with the visited node to be pushed linked to the
stack top), the reported ref `r` lies on an actual cycle of the graph. -/
theorem dfs_error_bundle (adj : String → List String) :
    ∀ fuel : Nat,
      (∀ st ref gs r, StWF st → GrayStack adj st gs →
        (gs = [] ∨ ∃ gs0 w, gs = gs0 ++ [w] ∧ ref ∈ adj w) →
        dfsVisit adj fuel st ref = .cycleAt r →
        ∃ c, isCycle adj c ∧ r ∈ c) ∧
      (∀ st l gs0 w r, StWF st → GrayStack adj st (gs0 ++ [w]) →
        (∀ d ∈ l, d ∈ adj w) →
        dfsList adj fuel st l = .cycleAt r →
        ∃ c, isCycle adj c ∧ r ∈ c) := by
  intro fuel
  induction fuel with
  | zero =>
    constructor
    · intro st ref gs r _ _ _ h
      simp [dfsVisit] at h
    · intro st l gs0 w r _ _ _ h
      cases l with
      | nil => simp [dfsList] at h
      | cons d rest => simp [dfsList] at h
  | succ n ih =>
    obtain ⟨ihV, ihL⟩ := ih
    constructor
    · -- visit part: push ref and recurse into the neighbour walk
      intro st ref gs r hwf hgray hlink h
      rcases hl : dfsList adj n (upd st ref 1) (adj ref) with stMid | r2 | _ <;>
        simp only [dfsVisit, hl] at h
      · cases h
      · -- the walk reported the cycle
        injection h with h2
        have hwf1 : StWF (upd st ref 1) := StWF_upd hwf ref (by omega)
        have hgray1 : GrayStack adj (upd st ref 1) (gs ++ [ref]) := by
          constructor
          · intro v
            by_cases hv : v = ref
            · subst hv
              simp [upd_self]
            · rw [upd_ne st ref 1 hv]
              rw [(hgray.1 v)]
              simp [hv]
          · rcases hlink with hnil | ⟨gs0, w, hsplit, hedge⟩
            · subst hnil
              exact List.chain'_singleton ref
            · rw [hsplit]
              exact chain'_snoc gs0 w ref (hsplit ▸ hgray.2) hedge
        exact h2 ▸ ihL (upd st ref 1) (adj ref) gs ref r2 hwf1 hgray1 (fun d hd => hd) hl
      · cases h
    · -- list part: walk the neighbour list of the stack top `w`
      intro st l gs0 w r hwf hgray hsub h
      cases l with
      | nil => simp [dfsList] at h
      | cons d rest =>
        by_cases hd1 : st d = 1
        · simp only [dfsList, hd1, if_true] at h
          injection h with h2
          exact h2 ▸ grayStack_cycle hgray.2 ((hgray.1 d).mp hd1) (hsub d (by simp))
        · by_cases hd0 : st d = 0
          · simp only [dfsList, hd1, if_false, hd0, if_true] at h
            rcases hv : dfsVisit adj n st d with stM | r2 | _ <;> rw [hv] at h
            · -- nested visit succeeded; the stack is unchanged as a set
              obtain ⟨a1, _, _, _⟩ := (dfs_success_bundle adj n).1 st d stM hwf hv
              have hwfM : StWF stM := by
                intro v
                rcases a1 v with e | ⟨_, e⟩
                · rw [e]; exact hwf v
                · rw [e]
              have hgrayM : GrayStack adj stM (gs0 ++ [w]) := by
                refine ⟨fun v => ?_, hgray.2⟩
                rw [← hgray.1 v]
                constructor
                · intro hM
                  rcases a1 v with e | ⟨_, e⟩
                  · rw [← e]; exact hM
                  · rw [e] at hM; exact absurd hM (by simp)
                · intro hst
                  rcases a1 v with e | ⟨hc, e⟩
                  · rw [e]; exact hst
                  · rcases hc with h0 | h0
                    · rw [h0] at hst; exact absurd hst (by simp)
                    · rw [h0] at hst; rw [hst] at hd0; exact absurd hd0 (by simp)
              exact ihL stM rest gs0 w r hwfM hgrayM (fun x hx => hsub x (by simp [hx])) h
            · -- nested visit reported the cycle
              injection h with h2
              exact h2 ▸ ihV st d (gs0 ++ [w]) r2 hwf hgray
                (Or.inr ⟨gs0, w, rfl, hsub d (by simp)⟩) hv
            · cases h
          · simp only [dfsList, hd1, if_false, hd0, if_false] at h
            exact ihL st rest gs0 w r hwf hgray (fun x hx => hsub x (by simp [hx])) h

/-! ## Fuel sufficiency: the out-of-fuel marker is unreachable -/

/-- Number of unvisited (white) nodes of the universe `U`. -/
def whiteCount (U : List String) (st : String → Nat) : Nat :=
  U.countP (fun v => st v == 0)

/-- Fewer whites after any promotion that takes a listed white node away. -/
theorem countP_flip_lt {p q : String → Bool} :
    ∀ (U : List String) (r : String), r ∈ U → p r = true → q r = false →
      (∀ v, q v = true → p v = true) → U.countP q < U.countP p := by
  intro U
  induction U with
  | nil => intro r hr; simp at hr
  | cons u t ih =>
    intro r hr hp hq hmono
    rw [List.countP_cons, List.countP_cons]
    rcases List.mem_cons.mp hr with h0 | h0
    · subst h0
      rw [hp, hq]
      simp only [if_true, Bool.false_eq_true, if_false]
      have : t.countP q ≤ t.countP p := List.countP_mono_left fun a _ hqa => hmono a hqa
      omega
    · have hlt := ih r h0 hp hq hmono
      by_cases hqu : q u = true
      · rw [hqu, hmono u hqu]
        simp only [if_true]
        omega
      · rw [Bool.not_eq_true] at hqu
        rw [hqu]
        by_cases hpu : p u = true
        · rw [hpu]
          simp only [if_true, Bool.false_eq_true, if_false]
          omega
        · rw [Bool.not_eq_true] at hpu
          rw [hpu]
          simp only [Bool.false_eq_true, if_false]
          omega

/-- Whites never increase across a monotone state evolution. -/
theorem whiteCount_le_of_reflect {U : List String} {st stOut : String → Nat}
    (h : ∀ v, stOut v = 0 → st v = 0) : whiteCount U stOut ≤ whiteCount U st := by
  refine List.countP_mono_left fun a _ ha => ?_
  rw [Nat.beq_eq_true_eq] at ha ⊢
  exact h a ha

/-- Marking a listed white node in-progress strictly lowers the count. -/
theorem whiteCount_upd_lt {U : List String} {st : String → Nat} {r : String}
    (hmem : r ∈ U) (hwhite : st r = 0) :
    whiteCount U (upd st r 1) < whiteCount U st := by
  refine countP_flip_lt U r hmem ?_ ?_ ?_
  · rw [Nat.beq_eq_true_eq]; exact hwhite
  · rw [Bool.eq_false_iff]
    intro hc
    rw [Nat.beq_eq_true_eq, upd_self] at hc
    exact absurd hc (by simp)
  · intro v hv
    rw [Nat.beq_eq_true_eq] at hv ⊢
    by_cases hvr : v = r
    · subst hvr; rw [upd_self] at hv; exact absurd hv (by simp)
    · rw [upd_ne st r 1 hvr] at hv; exact hv

/-- A successful visit of a listed white node strictly lowers the count. -/
theorem whiteCount_visit_lt {U : List String}
    {st stM : String → Nat} {d : String} (hmem : d ∈ U) (hwhite : st d = 0)
    (ha1 : ∀ v, stM v = st v ∨ ((st v = 0 ∨ v = d) ∧ stM v = 2))
    (ha2 : stM d = 2) :
    whiteCount U stM < whiteCount U st := by
  refine countP_flip_lt U d hmem ?_ ?_ ?_
  · rw [Nat.beq_eq_true_eq]; exact hwhite
  · rw [Bool.eq_false_iff]
    intro hc
    rw [Nat.beq_eq_true_eq, ha2] at hc
    exact absurd hc (by simp)
  · intro v hv
    rw [Nat.beq_eq_true_eq] at hv ⊢
    rcases ha1 v with e | ⟨_, e⟩
    · rw [← e]; exact hv
    · rw [e] at hv; exact absurd hv (by simp)

/-- The fuel bundle: with fuel at least `whiteCount * (1 + edge bound)`
(plus the pending list length for a walk), the DFS never runs out of
fuel.  `U` is any superset of the reachable nodes, `E` bounds every
adjacency list length. -/
theorem dfs_fuel_bundle (adj : String → List String) (U : List String) (E : Nat)
    (hadjU : ∀ u, ∀ d ∈ adj u, d ∈ U) (hadjE : ∀ u, (adj u).length ≤ E) :
    ∀ fuel : Nat,
      (∀ st ref, StWF st → st ref = 0 → ref ∈ U →
        whiteCount U st * (1 + E) ≤ fuel → dfsVisit adj fuel st ref ≠ .fuelOut) ∧
      (∀ st l, StWF st → (∀ d ∈ l, d ∈ U) →
        whiteCount U st * (1 + E) + l.length ≤ fuel → dfsList adj fuel st l ≠ .fuelOut) := by
  intro fuel
  induction fuel with
  | zero =>
    constructor
    · intro st ref _ hwhite hmem hfuel
      have hpos : 0 < whiteCount U st :=
        List.countP_pos_iff.mpr ⟨ref, hmem, by rw [Nat.beq_eq_true_eq]; exact hwhite⟩
      have hbig : 1 * (1 + E) ≤ whiteCount U st * (1 + E) :=
        Nat.mul_le_mul_right (1 + E) (by omega)
      rw [Nat.one_mul] at hbig
      omega
    · intro st l _ _ hfuel
      cases l with
      | nil =>
        intro hc
        simp only [dfsList] at hc
        cases hc
      | cons d rest =>
        simp only [List.length_cons] at hfuel
        omega
  | succ n ih =>
    obtain ⟨ihV, ihL⟩ := ih
    constructor
    · intro st ref hwf hwhite hmem hfuel
      have hwf1 : StWF (upd st ref 1) := StWF_upd hwf ref (by omega)
      have hlt : whiteCount U (upd st ref 1) < whiteCount U st :=
        whiteCount_upd_lt hmem hwhite
      have hpos : 0 < whiteCount U st :=
        List.countP_pos_iff.mpr ⟨ref, hmem, by rw [Nat.beq_eq_true_eq]; exact hwhite⟩
      have hinner : whiteCount U (upd st ref 1) * (1 + E) + (adj ref).length ≤ n := by
        have hstep : (whiteCount U (upd st ref 1) + 1) * (1 + E) ≤
            whiteCount U st * (1 + E) :=
          Nat.mul_le_mul_right (1 + E) (by omega)
        have hexpand : (whiteCount U (upd st ref 1) + 1) * (1 + E) =
            whiteCount U (upd st ref 1) * (1 + E) + (1 + E) := by ring
        have hlen := hadjE ref
        omega
      intro hcontra
      simp only [dfsVisit] at hcontra
      rcases hl : dfsList adj n (upd st ref 1) (adj ref) with stMid | r2 | _ <;>
        rw [hl] at hcontra
      · cases hcontra
      · cases hcontra
      · exact ihL (upd st ref 1) (adj ref) hwf1 (hadjU ref) hinner hl
    · intro st l hwf hsub hfuel
      cases l with
      | nil => simp [dfsList]
      | cons d rest =>
        by_cases hd1 : st d = 1
        · simp [dfsList, hd1]
        · by_cases hd0 : st d = 0
          · intro hcontra
            simp only [dfsList, hd1, if_false, hd0, if_true] at hcontra
            rcases hv : dfsVisit adj n st d with stM | r2 | _ <;> rw [hv] at hcontra
            · obtain ⟨a1, a2, _, _⟩ := (dfs_success_bundle adj n).1 st d stM hwf hv
              have hwfM : StWF stM := by
                intro v
                rcases a1 v with e | ⟨_, e⟩
                · rw [e]; exact hwf v
                · rw [e]
              have hlt : whiteCount U stM < whiteCount U st :=
                whiteCount_visit_lt (hsub d (by simp)) hd0 a1 a2
              have hrest : whiteCount U stM * (1 + E) + rest.length ≤ n := by
                have hstep : whiteCount U stM * (1 + E) ≤ whiteCount U st * (1 + E) :=
                  Nat.mul_le_mul_right (1 + E) (by omega)
                simp only [List.length_cons] at hfuel
                omega
              exact ihL stM rest hwfM (fun x hx => hsub x (by simp [hx])) hrest hcontra
            · cases hcontra
            · refine ihV st d hwf hd0 (hsub d (by simp)) ?_ hv
              simp only [List.length_cons] at hfuel
              omega
          · intro hcontra
            simp only [dfsList, hd1, if_false, hd0, if_false] at hcontra
            refine ihL st rest hwf (fun x hx => hsub x (by simp [hx])) ?_ hcontra
            simp only [List.length_cons] at hfuel
            omega

/-! ## Top-level DFS loop -/

/-- If some cycle's nodes are all either still to be rooted or already
finished, the top loop cannot end cleanly. -/
theorem dfsTop_ok_no_cycle (adj : String → List String) (fuel : Nat) :
    ∀ (l : List String) (st : String → Nat), StWF st → (∀ v, st v ≠ 1) →
      DfsInv adj st →
      (∃ c, isCycle adj c ∧ ∀ x ∈ c, x ∈ l ∨ st x = 2) →
      dfsTop adj fuel st l ≠ .ok := by
  intro l
  induction l with
  | nil =>
    intro st _ _ hinv ⟨c, hc, hcond⟩ _
    refine hinv.2 c hc fun v hv => ?_
    rcases hcond v hv with h0 | h0
    · simp at h0
    · exact h0
  | cons r0 rest ih =>
    intro st hwf hnogray hinv ⟨c, hc, hcond⟩
    by_cases h0 : st r0 = 0
    · intro hcontra
      simp only [dfsTop, h0, if_true, if_false, ne_eq, not_true_eq_false,
        reduceIte] at hcontra
      rcases hv : dfsVisit adj fuel st r0 with stM | r2 | _ <;> rw [hv] at hcontra
      · obtain ⟨a1, a2, _, a4⟩ := (dfs_success_bundle adj fuel).1 st r0 stM hwf hv
        have hwfM : StWF stM := by
          intro v
          rcases a1 v with e | ⟨_, e⟩
          · rw [e]; exact hwf v
          · rw [e]
        have hnograyM : ∀ v, stM v ≠ 1 := by
          intro v hvM
          rcases a1 v with e | ⟨_, e⟩
          · rw [e] at hvM; exact hnogray v hvM
          · rw [e] at hvM; exact absurd hvM (by simp)
        have hinvM : DfsInv adj stM := a4 (by rw [h0]; simp) hinv
        refine ih stM hwfM hnograyM hinvM ⟨c, hc, fun x hx => ?_⟩ hcontra
        rcases hcond x hx with hxl | hxb
        · rcases List.mem_cons.mp hxl with hxr | hxr
          · subst hxr; exact Or.inr a2
          · exact Or.inl hxr
        · refine Or.inr ?_
          rcases a1 x with e | ⟨_, e⟩
          · rw [e]; exact hxb
          · exact e
      · cases hcontra
      · cases hcontra
    · intro hcontra
      have hne : ¬ st r0 = 0 := h0
      simp only [dfsTop, hne, ne_eq, not_false_eq_true, if_true] at hcontra
      have h2 : st r0 = 2 := by
        have := hwf r0
        have := hnogray r0
        omega
      refine ih st hwf hnogray hinv ⟨c, hc, fun x hx => ?_⟩ hcontra
      rcases hcond x hx with hxl | hxb
      · rcases List.mem_cons.mp hxl with hxr | hxr
        · subst hxr; exact Or.inr h2
        · exact Or.inl hxr
      · exact Or.inr hxb

/-- When the top loop reports a cycle at `r`, the ref `r` really lies on
a cycle of the graph. -/
theorem dfsTop_cycle_sound (adj : String → List String) (fuel : Nat) :
    ∀ (l : List String) (st : String → Nat) (r : String), StWF st →
      (∀ v, st v ≠ 1) → dfsTop adj fuel st l = .cycleAt r →
      ∃ c, isCycle adj c ∧ r ∈ c := by
  intro l
  induction l with
  | nil => intro st r _ _ h; simp [dfsTop] at h
  | cons r0 rest ih =>
    intro st r hwf hnogray h
    by_cases h0 : st r0 = 0
    · simp only [dfsTop, h0, not_true_eq_false, ne_eq, reduceIte] at h
      rcases hv : dfsVisit adj fuel st r0 with stM | r2 | _ <;> rw [hv] at h
      · obtain ⟨a1, _, _, _⟩ := (dfs_success_bundle adj fuel).1 st r0 stM hwf hv
        have hwfM : StWF stM := by
          intro v
          rcases a1 v with e | ⟨_, e⟩
          · rw [e]; exact hwf v
          · rw [e]
        have hnograyM : ∀ v, stM v ≠ 1 := by
          intro v hvM
          rcases a1 v with e | ⟨_, e⟩
          · rw [e] at hvM; exact hnogray v hvM
          · rw [e] at hvM; exact absurd hvM (by simp)
        exact ih stM r hwfM hnograyM h
      · injection h with h2
        have hgray : GrayStack adj st [] := by
          refine ⟨fun v => ?_, by simp⟩
          simp only [List.not_mem_nil, iff_false]
          exact hnogray v
        exact h2 ▸ (dfs_error_bundle adj fuel).1 st r0 [] r2 hwf hgray (Or.inl rfl) hv
      · cases h
    · have hne : ¬ st r0 = 0 := h0
      simp only [dfsTop, hne, ne_eq, not_false_eq_true, if_true] at h
      exact ih st r hwf hnogray h

/-- With fuel exceeding `whiteCount * (1 + edge bound)`, the top loop
never runs out of fuel. -/
theorem dfsTop_no_fuelOut (adj : String → List String) (U : List String) (E : Nat)
    (hadjU : ∀ u, ∀ d ∈ adj u, d ∈ U) (hadjE : ∀ u, (adj u).length ≤ E) (fuel : Nat) :
    ∀ (l : List String) (st : String → Nat), StWF st → (∀ x ∈ l, x ∈ U) →
      whiteCount U st * (1 + E) < fuel →
      dfsTop adj fuel st l ≠ .fuelOut := by
  intro l
  induction l with
  | nil => intro st _ _ _ h; simp [dfsTop] at h
  | cons r0 rest ih =>
    intro st hwf hlU hfuel h
    by_cases h0 : st r0 = 0
    · simp only [dfsTop, h0, not_true_eq_false, ne_eq, reduceIte] at h
      rcases hv : dfsVisit adj fuel st r0 with stM | r2 | _ <;> rw [hv] at h
      · obtain ⟨a1, _, _, _⟩ := (dfs_success_bundle adj fuel).1 st r0 stM hwf hv
        have hwfM : StWF stM := by
          intro v
          rcases a1 v with e | ⟨_, e⟩
          · rw [e]; exact hwf v
          · rw [e]
        have hle : whiteCount U stM ≤ whiteCount U st := by
          refine whiteCount_le_of_reflect fun v hvM => ?_
          rcases a1 v with e | ⟨_, e⟩
          · rw [← e]; exact hvM
          · rw [e] at hvM; exact absurd hvM (by simp)
        refine ih stM hwfM (fun x hx => hlU x (by simp [hx])) ?_ h
        have := Nat.mul_le_mul_right (1 + E) hle
        omega
      · cases h
      · exact (dfs_fuel_bundle adj U E hadjU hadjE fuel).1 st r0 hwf h0
          (hlU r0 (by simp)) (by omega) hv
    · have hne : ¬ st r0 = 0 := h0
      simp only [dfsTop, hne, ne_eq, not_false_eq_true, if_true] at h
      exact ih st hwf (fun x hx => hlU x (by simp [hx])) hfuel h

/-! ## detectDependencyCycle: soundness and fuel adequacy -/

theorem edgeAdj_subset_nodes (plan : intakePlan) (edges : List intakeDependencyEdge) :
    ∀ u, ∀ d ∈ edgeAdj edges u, d ∈ dfsNodes plan edges := by
  intro u d hd
  unfold edgeAdj at hd
  obtain ⟨e, he, hde⟩ := List.mem_map.mp hd
  refine List.mem_append.mpr (Or.inr ?_)
  exact List.mem_map.mpr ⟨e, List.mem_of_mem_filter he, hde⟩

theorem edgeAdj_length_le (edges : List intakeDependencyEdge) :
    ∀ u, (edgeAdj edges u).length ≤ edges.length := by
  intro u
  unfold edgeAdj
  rw [List.length_map]
  exact List.length_filter_le _ _

theorem whiteCount_allZero (U : List String) :
    whiteCount U (fun _ => 0) = U.length := by
  unfold whiteCount
  have : U.countP (fun v => (0 : Nat) == 0) = U.countP (fun _ => true) := rfl
  rw [this, List.countP_true]

theorem initial_StWF : StWF (fun _ => 0) := fun _ => Nat.zero_le 2

theorem initial_noGray : ∀ v : String, (fun _ : String => (0 : Nat)) v ≠ 1 :=
  fun _ => by simp

theorem initial_DfsInv (adj : String → List String) : DfsInv adj (fun _ => 0) := by
  constructor
  · intro u hu
    simp at hu
  · intro c hc hall
    cases c with
    | nil => exact absurd hc (by simp [isCycle])
    | cons v vs => exact absurd (hall v (by simp)) (by simp)

/-- The model's fuel is always sufficient: `detectDependencyCycle` never
returns the out-of-fuel marker, so the fuel-indexed model coincides with
the Go recursion. -/
theorem detectDependencyCycle_no_fuelExhausted (plan : intakePlan)
    (edges : List intakeDependencyEdge) :
    detectDependencyCycle plan edges ≠ some .fuelExhausted := by
  unfold detectDependencyCycle
  rcases htop : dfsTop (edgeAdj edges) (detectFuel plan edges) (fun _ => 0)
      (plan.tasks.map (fun t => trimSpace t.ref)) with _ | r | _
  · rw [htop]
    simp
  · rw [htop]
    simp
  · exact absurd htop (dfsTop_no_fuelOut (edgeAdj edges) (dfsNodes plan edges)
      edges.length (edgeAdj_subset_nodes plan edges) (edgeAdj_length_le edges)
      (detectFuel plan edges) _ (fun _ => 0) initial_StWF
      (fun x hx => List.mem_append.mpr (Or.inl hx))
      (by rw [whiteCount_allZero]; unfold detectFuel dfsNodes; omega))

/-- Soundness of the cycle detector: if the edge graph contains a cycle
whose nodes are all rooted by the top loop, the detector reports
`cycleDetected r` for some `r` that lies on an actual cycle. -/
theorem detectDependencyCycle_sound (plan : intakePlan)
    (edges : List intakeDependencyEdge) (c : List String)
    (hcycle : isCycle (edgeAdj edges) c)
    (hnodes : ∀ x ∈ c, x ∈ plan.tasks.map (fun t => trimSpace t.ref)) :
    ∃ r c2, detectDependencyCycle plan edges = some (.cycleDetected r) ∧
      isCycle (edgeAdj edges) c2 ∧ r ∈ c2 := by
  rcases htop : dfsTop (edgeAdj edges) (detectFuel plan edges) (fun _ => 0)
      (plan.tasks.map (fun t => trimSpace t.ref)) with _ | r | _
  · exact absurd htop (dfsTop_ok_no_cycle (edgeAdj edges) (detectFuel plan edges) _
      (fun _ => 0) initial_StWF initial_noGray (initial_DfsInv _)
      ⟨c, hcycle, fun x hx => Or.inl (hnodes x hx)⟩)
  · obtain ⟨c2, hc2, hrc2⟩ := dfsTop_cycle_sound (edgeAdj edges)
      (detectFuel plan edges) _ (fun _ => 0) r initial_StWF initial_noGray htop
    refine ⟨r, c2, ?_, hc2, hrc2⟩
    unfold detectDependencyCycle
    rw [htop]
  · exact absurd htop (dfsTop_no_fuelOut (edgeAdj edges) (dfsNodes plan edges)
      edges.length (edgeAdj_subset_nodes plan edges) (edgeAdj_length_le edges)
      (detectFuel plan edges) _ (fun _ => 0) initial_StWF
      (fun x hx => List.mem_append.mpr (Or.inl hx))
      (by rw [whiteCount_allZero]; unfold detectFuel dfsNodes; omega))

/-! ## The collect phase, flattened

The nested task/dependency loops of `validateAndCollectDependencyEdges`
are proved equal to a single pass over the flattened entry list
`(i, j, trimmed blocked ref, trimmed blocker ref)`, which the C2/C8/C9/
C10 statements quantify over. -/

/-- One dependency entry: task index, dependency index, trimmed blocked
ref, trimmed blocker ref. -/
abbrev IntakeEntry : Type := Nat × Nat × String × String

/-- The entries contributed by one task from dependency index `j` on. -/
def depEntries (i : Nat) (blockedRef : String) : List String → Nat → List IntakeEntry
  | [], _ => []
  | d :: rest, j => (i, j, blockedRef, trimSpace d) :: depEntries i blockedRef rest (j + 1)

/-- The entries contributed by a task list from task index `i` on. -/
def taskEntries : List intakePlanTask → Nat → List IntakeEntry
  | [], _ => []
  | t :: rest, i =>
    depEntries i (trimSpace t.ref) t.localDependencyRefs 0 ++ taskEntries rest (i + 1)

/-- All dependency entries of a plan, in processing order. -/
def entryList (plan : intakePlan) : List IntakeEntry := taskEntries plan.tasks 0

/-- The `seenPairs` key of an entry (`blockedRef + NUL + blockerRef`). -/
def entryKey (e : IntakeEntry) : String := e.2.2.1 ++ nulSep ++ e.2.2.2

/-- The edge recorded for an entry. -/
def entryEdge (e : IntakeEntry) : intakeDependencyEdge := ⟨e.2.2.1, e.2.2.2⟩

/-- The trimmed task refs (`knownTaskRefs`). -/
def knownRefs (plan : intakePlan) : List String :=
  plan.tasks.map (fun t => trimSpace t.ref)

/-- The collect loop over the flattened entry list. -/
def collectFlat (known : List String) :
    List IntakeEntry → List String → List intakeDependencyEdge →
    Except IntakeError (List String × List intakeDependencyEdge)
  | [], seenPairs, edges => .ok (seenPairs, edges)
  | e :: rest, seenPairs, edges =>
    if e.2.2.2 ∈ known then
      if entryKey e ∈ seenPairs then .error (.duplicateRelation e.2.2.1 e.2.2.2)
      else collectFlat known rest (entryKey e :: seenPairs) (edges ++ [entryEdge e])
    else .error (.unknownRef e.2.2.2 e.1 e.2.1)

theorem collectDeps_eq_flat (known : List String) (i : Nat) (blockedRef : String) :
    ∀ (deps : List String) (j : Nat) (seenPairs : List String)
      (edges : List intakeDependencyEdge),
      collectDeps known i blockedRef deps j seenPairs edges =
        collectFlat known (depEntries i blockedRef deps j) seenPairs edges := by
  intro deps
  induction deps with
  | nil => intro j seenPairs edges; rfl
  | cons d rest ih =>
    intro j seenPairs edges
    show (if trimSpace d ∈ known then _ else _) = _
    simp only [depEntries, collectFlat, entryKey, entryEdge]
    by_cases hk : trimSpace d ∈ known
    · simp only [hk, if_true]
      by_cases hs : blockedRef ++ nulSep ++ trimSpace d ∈ seenPairs
      · simp only [hs, if_true]
      · simp only [hs, if_false]
        exact ih (j + 1) _ _
    · simp only [hk, if_false]

theorem collectFlat_append (known : List String) :
    ∀ (l1 l2 : List IntakeEntry) (seenPairs : List String)
      (edges : List intakeDependencyEdge),
      collectFlat known (l1 ++ l2) seenPairs edges =
        match collectFlat known l1 seenPairs edges with
        | .error e => .error e
        | .ok (s2, e2) => collectFlat known l2 s2 e2 := by
  intro l1
  induction l1 with
  | nil => intro l2 seenPairs edges; rfl
  | cons e rest ih =>
    intro l2 seenPairs edges
    simp only [List.cons_append, collectFlat]
    by_cases hk : e.2.2.2 ∈ known
    · simp only [hk, if_true]
      by_cases hs : entryKey e ∈ seenPairs
      · simp only [hs, if_true]
      · simp only [hs, if_false]
        exact ih l2 _ _
    · simp only [hk, if_false]

theorem collectTasks_eq_flat (known : List String) :
    ∀ (ts : List intakePlanTask) (i : Nat) (seenPairs : List String)
      (edges : List intakeDependencyEdge),
      collectTasks known ts i seenPairs edges =
        collectFlat known (taskEntries ts i) seenPairs edges := by
  intro ts
  induction ts with
  | nil => intro i seenPairs edges; rfl
  | cons t rest ih =>
    intro i seenPairs edges
    simp only [collectTasks, taskEntries, collectFlat_append, collectDeps_eq_flat]
    rcases collectFlat known (depEntries i (trimSpace t.ref) t.localDependencyRefs 0)
        seenPairs edges with e | ⟨s2, e2⟩
    · rfl
    · exact ih (i + 1) s2 e2

/-- `collectIntakeEdges` through the flattened pass. -/
theorem collectIntakeEdges_eq_flat (plan : intakePlan) :
    collectIntakeEdges plan =
      match collectFlat (knownRefs plan) (entryList plan) [] [] with
      | .error e => .error e
      | .ok (_, edges) => .ok edges := by
  have h0 : collectIntakeEdges plan =
      match collectTasks (knownRefs plan) plan.tasks 0 [] [] with
      | .error e => .error e
      | .ok (_, edges) => .ok edges := rfl
  rw [h0, collectTasks_eq_flat]
  rfl

/-- A successful flattened pass returns exactly the per-entry edges, in
order, appended to the accumulator. -/
theorem collectFlat_ok_edges (known : List String) :
    ∀ (l : List IntakeEntry) (seenPairs s2 : List String)
      (edges e2 : List intakeDependencyEdge),
      collectFlat known l seenPairs edges = .ok (s2, e2) →
      e2 = edges ++ l.map entryEdge := by
  intro l
  induction l with
  | nil =>
    intro seenPairs s2 edges e2 h
    simp only [collectFlat, Except.ok.injEq, Prod.mk.injEq] at h
    rw [← h.2]
    simp
  | cons e rest ih =>
    intro seenPairs s2 edges e2 h
    simp only [collectFlat] at h
    by_cases hk : e.2.2.2 ∈ known
    · rw [if_pos hk] at h
      by_cases hs : entryKey e ∈ seenPairs
      · rw [if_pos hs] at h; cases h
      · rw [if_neg hs] at h
        have := ih _ s2 _ e2 h
        rw [this]
        simp
    · rw [if_neg hk] at h; cases h

/-- Running the flattened pass across a prefix whose entries are all
known, whose pair keys are distinct and unseen: the pass continues into
the remainder with the prefix's keys pushed and its edges appended. -/
theorem collectFlat_prefix_run (known : List String) :
    ∀ (pre rest : List IntakeEntry) (seenPairs : List String)
      (edges : List intakeDependencyEdge),
      (∀ e ∈ pre, e.2.2.2 ∈ known) →
      (pre.map entryKey).Nodup →
      (∀ k ∈ pre.map entryKey, k ∉ seenPairs) →
      collectFlat known (pre ++ rest) seenPairs edges =
        collectFlat known rest ((pre.map entryKey).reverse ++ seenPairs)
          (edges ++ pre.map entryEdge) := by
  intro pre
  induction pre with
  | nil =>
    intro rest seenPairs edges _ _ _
    simp
  | cons e pre2 ih =>
    intro rest seenPairs edges hknown hnodup hfresh
    have hk : e.2.2.2 ∈ known := hknown e (by simp)
    have hs : entryKey e ∉ seenPairs := hfresh (entryKey e) (by simp)
    simp only [List.cons_append, collectFlat, hk, if_true, hs, if_false]
    rw [List.append_eq]
    rw [ih rest (entryKey e :: seenPairs) (edges ++ [entryEdge e])
      (fun x hx => hknown x (by simp [hx]))
      (by simpa using hnodup.of_cons)
      ?_]
    · simp only [List.map_cons, List.reverse_cons, List.map_cons]
      rw [List.append_assoc, List.singleton_append]
      congr 1
      rw [List.append_assoc, List.singleton_append]
    · intro k hkmem
      simp only [List.mem_cons, not_or]
      constructor
      · intro hcontra
        rw [List.map_cons, List.nodup_cons] at hnodup
        exact hnodup.1 (hcontra ▸ hkmem)
      · exact hfresh k (by simp [hkmem])

/-! ## The plan-level ref dependency graph -/

/-- The ref dependency graph of a plan as the claims state it: each
task's trimmed ref points to its trimmed `localDependencyRefs` entries. -/
def refAdj (plan : intakePlan) (r : String) : List String :=
  plan.tasks.flatMap
    (fun t => if trimSpace t.ref = r then t.localDependencyRefs.map trimSpace else [])

theorem edgeAdj_cons (e : intakeDependencyEdge) (es : List intakeDependencyEdge)
    (r : String) :
    edgeAdj (e :: es) r =
      (if e.blockedRef = r then [e.blockerRef] else []) ++ edgeAdj es r := by
  unfold edgeAdj
  rw [List.filter_cons]
  by_cases h : e.blockedRef = r
  · simp [h]
  · simp [h]

theorem edgeAdj_append (es1 es2 : List intakeDependencyEdge) (r : String) :
    edgeAdj (es1 ++ es2) r = edgeAdj es1 r ++ edgeAdj es2 r := by
  unfold edgeAdj
  rw [List.filter_append, List.map_append]

theorem edgeAdj_depEntries (i : Nat) (b r : String) :
    ∀ (deps : List String) (j : Nat),
      edgeAdj ((depEntries i b deps j).map entryEdge) r =
        if b = r then deps.map trimSpace else [] := by
  intro deps
  induction deps with
  | nil =>
    intro j
    by_cases h : b = r <;> simp [depEntries, edgeAdj, h]
  | cons d rest ih =>
    intro j
    simp only [depEntries, List.map_cons]
    rw [edgeAdj_cons, ih (j + 1)]
    by_cases h : b = r
    · simp only [entryEdge, h, if_true]
      rfl
    · simp only [entryEdge, h, if_false]
      rfl

theorem edgeAdj_taskEntries (r : String) :
    ∀ (ts : List intakePlanTask) (i : Nat),
      edgeAdj ((taskEntries ts i).map entryEdge) r =
        ts.flatMap
          (fun t => if trimSpace t.ref = r then t.localDependencyRefs.map trimSpace
            else []) := by
  intro ts
  induction ts with
  | nil => intro i; rfl
  | cons t rest ih =>
    intro i
    simp only [taskEntries, List.map_append, List.flatMap_cons]
    rw [edgeAdj_append, edgeAdj_depEntries, ih (i + 1)]

/-- A successful collect phase returns exactly the flattened entry
edges. -/
theorem collectIntakeEdges_ok_edges {plan : intakePlan}
    {edges : List intakeDependencyEdge} (hok : collectIntakeEdges plan = .ok edges) :
    edges = (entryList plan).map entryEdge := by
  rw [collectIntakeEdges_eq_flat] at hok
  rcases hflat : collectFlat (knownRefs plan) (entryList plan) [] [] with e | ⟨s2, e2⟩ <;>
    rw [hflat] at hok
  · cases hok
  · have := collectFlat_ok_edges (knownRefs plan) (entryList plan) [] s2 [] e2 hflat
    simp only [List.nil_append] at this
    simp only [Except.ok.injEq] at hok
    rw [← hok, this]

/-- After a successful collect phase, the detector's edge graph is the
plan's ref dependency graph. -/
theorem edgeAdj_eq_refAdj {plan : intakePlan} {edges : List intakeDependencyEdge}
    (hok : collectIntakeEdges plan = .ok edges) :
    edgeAdj edges = refAdj plan := by
  funext r
  rw [collectIntakeEdges_ok_edges hok]
  exact edgeAdj_taskEntries r plan.tasks 0

/-- A node with an out-edge in the ref graph is a trimmed task ref. -/
theorem refAdj_source_mem {plan : intakePlan} {x y : String}
    (hy : y ∈ refAdj plan x) : x ∈ plan.tasks.map (fun t => trimSpace t.ref) := by
  unfold refAdj at hy
  obtain ⟨t, ht, hyt⟩ := List.mem_flatMap.mp hy
  by_cases hcond : trimSpace t.ref = x
  · exact List.mem_map.mpr ⟨t, ht, hcond⟩
  · rw [if_neg hcond] at hyt
    simp at hyt

/-- Shared engine for C2 and C10: when the reference/duplicate phase
succeeds and the plan's ref graph has a cycle,
`validateAndCollectDependencyEdges` fails with the cycle-detected error,
naming a ref that lies on a cycle, and returns no edges. -/
theorem validate_cycle_error {plan : intakePlan} {edges : List intakeDependencyEdge}
    {c : List String} (hok : collectIntakeEdges plan = .ok edges)
    (hcycle : isCycle (refAdj plan) c) :
    ∃ r c2, validateAndCollectDependencyEdges plan = .error (.cycleDetected r) ∧
      isCycle (refAdj plan) c2 ∧ r ∈ c2 := by
  have hAdj : edgeAdj edges = refAdj plan := edgeAdj_eq_refAdj hok
  have hnodes : ∀ x ∈ c, x ∈ plan.tasks.map (fun t => trimSpace t.ref) := by
    intro x hx
    obtain ⟨y, _, hyadj⟩ := isCycle_out_edge hcycle hx
    exact refAdj_source_mem hyadj
  obtain ⟨r, c2, hdet, hc2, hrc2⟩ :=
    detectDependencyCycle_sound plan edges c (by rw [hAdj]; exact hcycle) hnodes
  refine ⟨r, c2, ?_, by rw [← hAdj]; exact hc2, hrc2⟩
  unfold validateAndCollectDependencyEdges
  rw [hok]
  show (match detectDependencyCycle plan edges with
    | some e => Except.error e
    | none => Except.ok edges) = Except.error (IntakeError.cycleDetected r)
  rw [hdet]

/-! ## C2: cycle detection soundness -/

/-- A well-formed epic reused by the validator example plans. -/
def exEpic : intakePlanEpic := { title := "E", description := "D", priority := "high" }

/-- Task `a` depending on `b` twice (a duplicate pair). -/
def taskADupB : intakePlanTask :=
  { ref := "a", title := "T", description := "d", acceptanceCriteria := ["c"],
    localDependencyRefs := ["b", "b"] }

/-- Task `b` depending on `a`. -/
def taskBDepA : intakePlanTask :=
  { ref := "b", title := "T", description := "d", acceptanceCriteria := ["c"],
    localDependencyRefs := ["a"] }

/-- A plan whose ref graph has the 2-cycle `a ↔ b` and which also
declares the pair `(a, b)` twice. -/
def dupCyclePlan : intakePlan := { epic := exEpic, tasks := [taskADupB, taskBDepA] }

/-- C2 counterexample: a plan whose ref graph contains the length-2
cycle `a → b → a` for which `validateAndCollectDependencyEdges` returns
the duplicate-relation error, not a cycle-detected error — the
duplicate-pair check runs first. -/
theorem C2_counterexample :
    validateAndCollectDependencyEdges dupCyclePlan = .error (.duplicateRelation "a" "b") ∧
      isCycle (refAdj dupCyclePlan) ["a", "b"] ∧
      2 ≤ (["a", "b"] : List String).length := by
  refine ⟨rfl, ?_, by simp⟩
  show List.Chain (fun x y => y ∈ refAdj dupCyclePlan x) "a" (["b"] ++ ["a"])
  exact List.Chain.cons (by decide) (List.Chain.cons (by decide) List.Chain.nil)

/-- C2 (amended): for every plan that passes the unknown-ref and
duplicate-pair phase and whose ref dependency graph contains a cycle of
length at least 2, `validateAndCollectDependencyEdges` returns the
cycle-detected error naming a ref that lies on a cycle of the graph, and
returns no edge list. -/
theorem C2_cycle_soundness_amended (plan : intakePlan)
    (edges : List intakeDependencyEdge) (c : List String)
    (hok : collectIntakeEdges plan = .ok edges)
    (hcycle : isCycle (refAdj plan) c) (_hlen : 2 ≤ c.length) :
    ∃ r c2, validateAndCollectDependencyEdges plan = .error (.cycleDetected r) ∧
      isCycle (refAdj plan) c2 ∧ r ∈ c2 :=
  validate_cycle_error hok hcycle

/-- Task `task-a` depending on `task-b`. -/
def taskAB : intakePlanTask :=
  { ref := "task-a", title := "T", description := "d", acceptanceCriteria := ["c"],
    localDependencyRefs := ["task-b"] }

/-- Task `task-b` depending on `task-a`. -/
def taskBA : intakePlanTask :=
  { ref := "task-b", title := "T", description := "d", acceptanceCriteria := ["c"],
    localDependencyRefs := ["task-a"] }

/-- A clean 2-cycle plan (no duplicates, all refs known). -/
def cyclePlan : intakePlan := { epic := exEpic, tasks := [taskAB, taskBA] }

/-- C2 witness: the clean 2-cycle plan fails with a cycle-detected error
naming a ref on a cycle. -/
theorem C2_cycle_soundness_amended_witness :
    ∃ r c2, validateAndCollectDependencyEdges cyclePlan = .error (.cycleDetected r) ∧
      isCycle (refAdj cyclePlan) c2 ∧ r ∈ c2 :=
  C2_cycle_soundness_amended cyclePlan
    [⟨"task-a", "task-b"⟩, ⟨"task-b", "task-a"⟩] ["task-a", "task-b"] rfl
    (List.Chain.cons (by decide) (List.Chain.cons (by decide) List.Chain.nil))
    (by simp)

/-! ## C8: unknown dependency refs -/

/-- C8 counterexample plan: `a` depends on `b`, `b`, `zz`; the duplicate
pair `(a, b)` precedes the unknown ref `zz`. -/
def dupBeforeUnknownPlan : intakePlan :=
  { epic := exEpic,
    tasks := [{ ref := "a", title := "T", description := "d",
                acceptanceCriteria := ["c"],
                localDependencyRefs := ["b", "b", "zz"] },
              { ref := "b", title := "T", description := "d",
                acceptanceCriteria := ["c"], localDependencyRefs := [] }] }

/-- C8 counterexample: a plan that contains an unknown dependency ref
(`zz`) but fails with the duplicate-relation error instead of the
unknown-dependency-ref error, because a duplicate pair is declared
earlier in processing order. -/
theorem C8_counterexample :
    validateAndCollectDependencyEdges dupBeforeUnknownPlan =
        .error (.duplicateRelation "a" "b") ∧
      trimSpace "zz" ∉ knownRefs dupBeforeUnknownPlan ∧
      (∃ t ∈ dupBeforeUnknownPlan.tasks, "zz" ∈ t.localDependencyRefs) := by
  refine ⟨rfl, by decide, ?_⟩
  exact ⟨dupBeforeUnknownPlan.tasks.head (by simp [dupBeforeUnknownPlan]),
    by simp [dupBeforeUnknownPlan], by simp [dupBeforeUnknownPlan]⟩

/-- C8 (amended): if in processing order (tasks, then dependency
entries) every entry before some entry `(i, j, blocked, blocker)`
resolves to a known trimmed task ref and no duplicate pair occurs among
those earlier entries, and `blocker` is not a known trimmed task ref,
then `validateAndCollectDependencyEdges` fails with the
unknown-dependency-ref error carrying exactly that ref, task index and
dependency index, and returns no edges. -/
theorem C8_unknown_ref_amended (plan : intakePlan) (pre post : List IntakeEntry)
    (i j : Nat) (blocked blocker : String)
    (hsplit : entryList plan = pre ++ (i, j, blocked, blocker) :: post)
    (hunknown : blocker ∉ knownRefs plan)
    (hpreKnown : ∀ e ∈ pre, e.2.2.2 ∈ knownRefs plan)
    (hpreNodup : (pre.map entryKey).Nodup) :
    validateAndCollectDependencyEdges plan = .error (.unknownRef blocker i j) := by
  have hflat : collectFlat (knownRefs plan) (entryList plan) [] [] =
      .error (.unknownRef blocker i j) := by
    rw [hsplit, collectFlat_prefix_run (knownRefs plan) pre _ [] [] hpreKnown hpreNodup
      (by simp)]
    simp only [collectFlat]
    rw [if_neg hunknown]
  have hcol : collectIntakeEdges plan = .error (.unknownRef blocker i j) := by
    rw [collectIntakeEdges_eq_flat, hflat]
  unfold validateAndCollectDependencyEdges
  rw [hcol]

/-- C8 witness: the amended theorem at the one-task plan whose only
dependency ref `zz` is unknown. -/
theorem C8_unknown_ref_amended_witness :
    validateAndCollectDependencyEdges badEdgePlan = .error (.unknownRef "zz" 0 0) :=
  C8_unknown_ref_amended badEdgePlan [] [] 0 0 "a" "zz" rfl (by decide)
    (by simp) (by simp)

/-! ## C9: duplicate dependency pairs -/

/-- C9 counterexample plan: the unknown ref `zz` precedes the duplicated
pair `(b, a)`. -/
def unknownBeforeDupPlan : intakePlan :=
  { epic := exEpic,
    tasks := [{ ref := "a", title := "T", description := "d",
                acceptanceCriteria := ["c"], localDependencyRefs := ["zz"] },
              { ref := "b", title := "T", description := "d",
                acceptanceCriteria := ["c"], localDependencyRefs := ["a", "a"] }] }

/-- C9 counterexample: a plan that declares the ordered pair `(b, a)`
twice but fails with the unknown-dependency-ref error instead of the
duplicate-relation error, because an unknown ref occurs earlier in
processing order. -/
theorem C9_counterexample :
    validateAndCollectDependencyEdges unknownBeforeDupPlan =
        .error (.unknownRef "zz" 0 0) ∧
      entryList unknownBeforeDupPlan =
        [(0, 0, "a", "zz"), (1, 0, "b", "a"), (1, 1, "b", "a")] :=
  ⟨rfl, rfl⟩

/-- C9 (amended): if in processing order every entry before some entry
`(i, j, blocked, blocker)` resolves to a known trimmed task ref with no
earlier duplicate pair, `blocker` is known, and the ordered pair
`(blocked, blocker)` already occurred among the earlier entries, then
`validateAndCollectDependencyEdges` fails with the dupli­cate-relation
error for that pair — an error distinct from the cycle-detected error —
and returns no edges. -/
theorem C9_duplicate_amended (plan : intakePlan) (pre post : List IntakeEntry)
    (i j : Nat) (blocked blocker : String)
    (hsplit : entryList plan = pre ++ (i, j, blocked, blocker) :: post)
    (hknown : blocker ∈ knownRefs plan)
    (hpreKnown : ∀ e ∈ pre, e.2.2.2 ∈ knownRefs plan)
    (hdup : blocked ++ nulSep ++ blocker ∈ pre.map entryKey)
    (hpreNodup : (pre.map entryKey).Nodup) :
    validateAndCollectDependencyEdges plan = .error (.duplicateRelation blocked blocker) ∧
      ∀ r, validateAndCollectDependencyEdges plan ≠ .error (.cycleDetected r) := by
  have hflat : collectFlat (knownRefs plan) (entryList plan) [] [] =
      .error (.duplicateRelation blocked blocker) := by
    rw [hsplit, collectFlat_prefix_run (knownRefs plan) pre _ [] [] hpreKnown hpreNodup
      (by simp)]
    simp only [collectFlat]
    rw [if_pos hknown, if_pos]
    rw [List.append_nil]
    exact List.mem_reverse.mpr hdup
  have hcol : collectIntakeEdges plan = .error (.duplicateRelation blocked blocker) := by
    rw [collectIntakeEdges_eq_flat, hflat]
  have hval : validateAndCollectDependencyEdges plan =
      .error (.duplicateRelation blocked blocker) := by
    unfold validateAndCollectDependencyEdges
    rw [hcol]
  refine ⟨hval, fun r hr => ?_⟩
  rw [hval] at hr
  simp at hr

/-- A plan declaring the pair `(b, a)` twice, everything else valid. -/
def plainDupPlan : intakePlan :=
  { epic := exEpic,
    tasks := [{ ref := "a", title := "T", description := "d",
                acceptanceCriteria := ["c"], localDependencyRefs := [] },
              { ref := "b", title := "T", description := "d",
                acceptanceCriteria := ["c"], localDependencyRefs := ["a", "a"] }] }

/-- C9 witness: the duplicated `(b, a)` pair fails with the
duplicate-relation error and not with a cycle error. -/
theorem C9_duplicate_amended_witness :
    validateAndCollectDependencyEdges plainDupPlan =
        .error (.duplicateRelation "b" "a") ∧
      ∀ r, validateAndCollectDependencyEdges plainDupPlan ≠
        .error (.cycleDetected r) :=
  C9_duplicate_amended plainDupPlan [(1, 0, "b", "a")] [] 1 1 "b" "a" rfl
    (by decide) (by decide) (by decide) (by simp)

/-! ## C10: self-loops -/

/-- The self-looping task `a`. -/
def selfLoopTaskA : intakePlanTask :=
  { ref := "a", title := "T", description := "d", acceptanceCriteria := ["c"],
    localDependencyRefs := ["a"] }

/-- C10 counterexample plan: an unknown ref (`zz`) precedes a self-loop
(`a` depends on itself). -/
def unknownBeforeSelfLoopPlan : intakePlan :=
  { epic := exEpic,
    tasks := [{ ref := "x", title := "T", description := "d",
                acceptanceCriteria := ["c"], localDependencyRefs := ["zz"] },
              selfLoopTaskA] }

/-- C10 counterexample: a plan in which a task lists its own trimmed ref
among its dependencies, yet `validateAndCollectDependencyEdges` fails
with the unknown-dependency-ref error, not the cycle-detected error,
because an unknown ref occurs earlier in processing order. -/
theorem C10_counterexample :
    validateAndCollectDependencyEdges unknownBeforeSelfLoopPlan =
        .error (.unknownRef "zz" 0 0) ∧
      (∃ t ∈ unknownBeforeSelfLoopPlan.tasks,
        trimSpace t.ref ∈ t.localDependencyRefs.map trimSpace) := by
  refine ⟨rfl, selfLoopTaskA, by simp [unknownBeforeSelfLoopPlan, selfLoopTaskA], by decide⟩

/-- C10 (amended): for every plan that passes the unknown-ref and
duplicate-pair phase and in which some task lists its own trimmed ref
among its trimmed `localDependencyRefs` (a self-loop),
`validateAndCollectDependencyEdges` rejects the plan with the
cycle-detected error naming a ref on a cycle, and returns no edges. -/
theorem C10_self_loop_amended (plan : intakePlan)
    (edges : List intakeDependencyEdge) (t : intakePlanTask)
    (hok : collectIntakeEdges plan = .ok edges) (hmem : t ∈ plan.tasks)
    (hself : trimSpace t.ref ∈ t.localDependencyRefs.map trimSpace) :
    ∃ r c2, validateAndCollectDependencyEdges plan = .error (.cycleDetected r) ∧
      isCycle (refAdj plan) c2 ∧ r ∈ c2 := by
  have hc : isCycle (refAdj plan) [trimSpace t.ref] := by
    show List.Chain (fun x y => y ∈ refAdj plan x) (trimSpace t.ref)
      ([] ++ [trimSpace t.ref])
    refine List.Chain.cons ?_ List.Chain.nil
    unfold refAdj
    refine List.mem_flatMap.mpr ⟨t, hmem, ?_⟩
    rw [if_pos rfl]
    exact hself
  exact validate_cycle_error hok hc

/-- The self-looping task `s`. -/
def selfLoopTaskS : intakePlanTask :=
  { ref := "s", title := "T", description := "d", acceptanceCriteria := ["c"],
    localDependencyRefs := ["s"] }

/-- A plan with a single self-looping task. -/
def selfLoopPlan : intakePlan := { epic := exEpic, tasks := [selfLoopTaskS] }

/-- C10 witness: a self-looping task is rejected with the cycle-detected
error. -/
theorem C10_self_loop_amended_witness :
    ∃ r c2, validateAndCollectDependencyEdges selfLoopPlan =
        .error (.cycleDetected r) ∧
      isCycle (refAdj selfLoopPlan) c2 ∧ r ∈ c2 :=
  C10_self_loop_amended selfLoopPlan [⟨"s", "s"⟩] selfLoopTaskS
    rfl (by simp [selfLoopPlan]) (by decide)

end Yoke
